import Mathlib

set_option linter.constructorNameAsVariable false

/-!
Verification of the content-acquisition and relevance-ranking pipeline of the
process-website-search service (src/supabase/functions/process-website-search/index.ts).

The TypeScript functions are shallowly embedded over `List Char` (a JS string is
modelled as its list of UTF-16-ish characters; all inputs appearing in the claims
are ASCII, where the model is exact).  JS numbers are modelled by `ℚ` where the
source arithmetic is exact (counts, sums with literals 2, 0.5, 0.3, 0.1) and by
`ℝ` where the source uses `Math.log`.  The JS value `NaN`, which arises in the
source exactly when a score normalization divides zero by zero, is modelled by
`none : Option _`; see `jsDiv` and `jsDivQ`.
-/

namespace WebSearch

/-- Membership of the JS regex class `\s` (ECMAScript WhiteSpace and
LineTerminator code points), used by `split(/\s+/)`, `replace(/\s+/g, ...)`
and `trim()` in the source. -/
def isJsSpace (c : Char) : Bool :=
  c = ' ' || c = '\t' || c = '\n' || c = '\r' || c = '\x0b' || c = '\x0c' ||
  c = '\u00A0' || c = '\u1680' || ('\u2000' ≤ c && c ≤ '\u200A') ||
  c = '\u2028' || c = '\u2029' || c = '\u202F' || c = '\u205F' ||
  c = '\u3000' || c = '\uFEFF'

/-- Membership of the JS regex class `\w` (`[A-Za-z0-9_]`), the word
characters determining `\b` boundaries. -/
def isWordChar (c : Char) : Bool :=
  ('a' ≤ c && c ≤ 'z') || ('A' ≤ c && c ≤ 'Z') || ('0' ≤ c && c ≤ '9') || c = '_'

/-- Models `String.prototype.toLowerCase` on the characters the pipeline
manipulates.  `Char.toLower` lowers the ASCII range, on which every input of the
claims lives; both maps fix characters such as the copyright sign. -/
def jsToLower (l : List Char) : List Char := l.map Char.toLower

/-- Models `String.prototype.includes(pat)`: substring test. -/
def containsSub (pat : List Char) : List Char → Bool
  | [] => pat.isEmpty
  | c :: rest => pat.isPrefixOf (c :: rest) || containsSub pat rest

/-- Auxiliary for `wordsOf`: accumulates the current run of non-whitespace
characters. -/
def wordsOfAux : List Char → List Char → List (List Char)
  | cur, [] => if cur = [] then [] else [cur]
  | cur, c :: rest =>
    if isJsSpace c then
      (if cur = [] then wordsOfAux [] rest else cur :: wordsOfAux [] rest)
    else wordsOfAux (cur ++ [c]) rest

/-- Models `s.split(/\s+/).filter(w => w.length > 0)` (source line 203): the
maximal runs of non-whitespace characters, in order.  The source composes
`split` with a non-emptiness filter, which is exactly maximal-run splitting. -/
def wordsOf (l : List Char) : List (List Char) := wordsOfAux [] l

/-- Models `Array.prototype.join(' ')` on a list of words. -/
def joinSpace : List (List Char) → List Char
  | [] => []
  | [w] => w
  | w :: v :: ws => w ++ ' ' :: joinSpace (v :: ws)

/-- Drops a trailing run of JS whitespace (the tail half of
`String.prototype.trim()`). -/
def trimEndWs : List Char → List Char
  | [] => []
  | c :: rest =>
    match trimEndWs rest with
    | [] => if isJsSpace c then [] else [c]
    | r => c :: r

/-- Models `String.prototype.trim()`: removes leading and trailing JS
whitespace. -/
def jsTrim (l : List Char) : List Char := trimEndWs (l.dropWhile isJsSpace)

/-- Groups `l` into consecutive blocks `l.slice(i, i + w)`; `fuel` bounds the
recursion and is instantiated with `l.length`. -/
def chunksOfAux (w : ℕ) : ℕ → List α → List (List α)
  | _, [] => []
  | 0, _ :: _ => []
  | f + 1, x :: xs => (x :: xs.take (w - 1)) :: chunksOfAux w f (xs.drop (w - 1))

/-- The grouping performed by the chunking loop of `tokenizeAndChunk`
(source lines 208-224): consecutive non-overlapping slices of `w` words. -/
def chunksOf (w : ℕ) (l : List α) : List (List α) := chunksOfAux w l.length l

/-- The chunk record of the source (`HTMLChunk`).  `relevanceScore` is a JS
number; `none` models `NaN`. -/
structure HTMLChunk where
  content : List Char
  tokens : ℕ
  chunkIndex : ℕ
  htmlTagContext : List Char
  relevanceScore : Option ℝ

/-- Models `detectContentContext` (source lines 229-247). -/
def detectContentContext (content : List Char) : List Char :=
  let lowerContent := jsToLower content
  if containsSub ['©'] lowerContent || containsSub ("copyright".data) lowerContent then
    "footer".data
  else if containsSub ("navigation".data) lowerContent || containsSub ("menu".data) lowerContent then
    "navigation".data
  else if lowerContent.length < 100 then
    "heading".data
  else if containsSub ("contact".data) lowerContent || containsSub ("email".data) lowerContent
      || containsSub ("phone".data) lowerContent then
    "contact".data
  else
    "content".data

/-- One iteration of the chunk-emitting loop body (source lines 209-223):
joins the slice with spaces, estimates tokens as `ceil(length / 4)` clamped to
`maxTokensPerChunk`, and pushes the trimmed content with a 1-based index when
the trimmed content is non-empty. -/
def pushChunk (maxTokensPerChunk : ℕ) (acc : List HTMLChunk) (group : List (List Char)) :
    List HTMLChunk :=
  let chunkContent := joinSpace group
  let estimatedTokens := (chunkContent.length + 3) / 4
  if 0 < (jsTrim chunkContent).length then
    acc ++ [{ content := jsTrim chunkContent
              tokens := min estimatedTokens maxTokensPerChunk
              chunkIndex := acc.length + 1
              htmlTagContext := detectContentContext chunkContent
              relevanceScore := some 0 }]
  else acc

/-- Models `tokenizeAndChunk` (source lines 199-227).
`wordsPerChunk = Math.floor(maxTokensPerChunk * 0.75)` is `3 * m / 4` in exact
integer arithmetic (the double `m * 0.75` is exact for every realistic `m`).
When `wordsPerChunk = 0` and the word list is non-empty, the source loop
`for (i = 0; i < words.length; i += wordsPerChunk)` never advances `i` and the
function never returns; that divergence is modelled by `none`. -/
def tokenizeAndChunk (content : List Char) (maxTokensPerChunk : ℕ) :
    Option (List HTMLChunk) :=
  if maxTokensPerChunk * 3 / 4 = 0 ∧ wordsOf content ≠ [] then none
  else
    some ((chunksOf (maxTokensPerChunk * 3 / 4) (wordsOf content)).foldl
      (pushChunk maxTokensPerChunk) [])

/-- Case-insensitive prefix test: `pat` (given in lower case) is a prefix of
`l` up to `toLowerCase`, matching the `i` flag of the source regexes. -/
def ciStarts : List Char → List Char → Bool
  | [], _ => true
  | _ :: _, [] => false
  | p :: ps, c :: cs => (c.toLower = p) && ciStarts ps cs

/-- The suffix of `l` following the first occurrence of `pat` (matched
case-insensitively), or `none` when `pat` does not occur: the continuation
point of a lazy `[\s\S]*?pat` regex match. -/
def ciDropAfter (pat : List Char) : List Char → Option (List Char)
  | [] => if pat.isEmpty then some [] else none
  | c :: rest =>
    if ciStarts pat (c :: rest) then some ((c :: rest).drop pat.length)
    else ciDropAfter pat rest

/-- The suffix of `l` following the first occurrence of `pat` (matched
case-sensitively), or `none` when `pat` does not occur. -/
def dropAfterSub (pat : List Char) : List Char → Option (List Char)
  | [] => if pat.isEmpty then some [] else none
  | c :: rest =>
    if pat.isPrefixOf (c :: rest) then some ((c :: rest).drop pat.length)
    else dropAfterSub pat rest

/-- The suffix of `l` following the first `>`: the continuation point after a
`[^>]*>` regex fragment, or `none` when no `>` remains (in which case the
enclosing regex cannot match at the current position). -/
def dropAfterGt : List Char → Option (List Char)
  | [] => none
  | '>' :: rest => some rest
  | _ :: rest => dropAfterGt rest

/-- Models `replace(/<tag[^>]*>[\s\S]*?<\/tag>/gi, '')` (source lines 167-168):
removes every `<tag ...> ... </tag>` block including its content, scanning left
to right and resuming after each removed block, exactly as a global regex
replace does.  `fuel` bounds the recursion and is instantiated with the input
length, which the scan never exceeds. -/
def stripBlockAux (tag : List Char) : ℕ → List Char → List Char
  | 0, l => l
  | _ + 1, [] => []
  | f + 1, c :: rest =>
    if c = '<' then
      if ciStarts tag rest then
        match dropAfterGt (rest.drop tag.length) with
        | none => c :: stripBlockAux tag f rest
        | some afterOpen =>
          match ciDropAfter ('<' :: '/' :: (tag ++ ['>'])) afterOpen with
          | none => c :: stripBlockAux tag f rest
          | some afterClose => stripBlockAux tag f afterClose
      else c :: stripBlockAux tag f rest
    else c :: stripBlockAux tag f rest

/-- Source line 167: removal of `<script ...> ... </script>` blocks. -/
def stripScriptBlocks (l : List Char) : List Char := stripBlockAux ("script".data) l.length l

/-- Source line 168: removal of `<style ...> ... </style>` blocks. -/
def stripStyleBlocks (l : List Char) : List Char := stripBlockAux ("style".data) l.length l

/-- Models `replace(/<!--[\s\S]*?-->/g, '')` (source line 171): removes HTML
comments, lazily up to the first `-->`. -/
def stripCommentsAux : ℕ → List Char → List Char
  | 0, l => l
  | _ + 1, [] => []
  | f + 1, c :: rest =>
    if c = '<' then
      if ("!--".data).isPrefixOf rest then
        match dropAfterSub ("-->".data) (rest.drop 3) with
        | none => c :: stripCommentsAux f rest
        | some afterClose => stripCommentsAux f afterClose
      else c :: stripCommentsAux f rest
    else c :: stripCommentsAux f rest

def stripComments (l : List Char) : List Char := stripCommentsAux l.length l

/-- The alternation `(nav|header|footer|aside|menu)` of source line 174.  The
five names begin with distinct letters, so at most one alternative can match at
any position and the regex alternation order is immaterial. -/
def chromeTags : List (List Char) :=
  ["nav".data, "header".data, "footer".data, "aside".data, "menu".data]

/-- Models `replace(/<(nav|header|footer|aside|menu)[^>]*>[\s\S]*?<\/\1>/gi, '')`
(source line 174): single-pass, non-recursive removal of chrome elements,
with the backreference `\1` requiring the matching closing tag. -/
def stripChromeAux : ℕ → List Char → List Char
  | 0, l => l
  | _ + 1, [] => []
  | f + 1, c :: rest =>
    if c = '<' then
      match chromeTags.find? (fun t => ciStarts t rest) with
      | some t =>
        match dropAfterGt (rest.drop t.length) with
        | none => c :: stripChromeAux f rest
        | some afterOpen =>
          match ciDropAfter ('<' :: '/' :: (t ++ ['>'])) afterOpen with
          | none => c :: stripChromeAux f rest
          | some afterClose => stripChromeAux f afterClose
      | none => c :: stripChromeAux f rest
    else c :: stripChromeAux f rest

def stripChrome (l : List Char) : List Char := stripChromeAux l.length l

/-- The alternation `(div|p|h[1-6]|li|section|article|blockquote|pre)` of
source line 178, with `h[1-6]` expanded.  A close tag `</x>` can match at most
one alternative, so the order is immaterial. -/
def blockTags : List (List Char) :=
  ["div".data, "p".data, "h1".data, "h2".data, "h3".data, "h4".data, "h5".data,
   "h6".data, "li".data, "section".data, "article".data, "blockquote".data, "pre".data]

/-- Models `replace(/<\/(div|p|h[1-6]|li|section|article|blockquote|pre)>/gi, '\n')`
(source line 178): closing block tags become a newline.  The `skip` state
consumes the remainder of a match already replaced. -/
def closeBlocksAux : ℕ → List Char → List Char
  | _, [] => []
  | s + 1, _ :: rest => closeBlocksAux s rest
  | 0, c :: rest =>
    if c = '<' then
      match blockTags.find? (fun t => ciStarts ('/' :: (t ++ ['>'])) rest) with
      | some t => '\n' :: closeBlocksAux (t.length + 2) rest
      | none => c :: closeBlocksAux 0 rest
    else c :: closeBlocksAux 0 rest

def closeBlocks (l : List Char) : List Char := closeBlocksAux 0 l

/-- Models `replace(/<[^>]*>/g, ' ')` (source line 181): every remaining tag,
from a `<` to the next `>`, becomes a single space; a `<` with no following
`>` is left in place. -/
def stripTagsAux : ℕ → List Char → List Char
  | 0, l => l
  | _ + 1, [] => []
  | f + 1, c :: rest =>
    if c = '<' then
      match dropAfterGt rest with
      | none => c :: stripTagsAux f rest
      | some afterClose => ' ' :: stripTagsAux f afterClose
    else c :: stripTagsAux f rest

def stripTags (l : List Char) : List Char := stripTagsAux l.length l

/-- Models `replace(/pat/g, rep)` for a literal pattern: scans left to right,
replaces each non-overlapping occurrence, and resumes after the matched
portion of the input (the replacement text is not rescanned), exactly as JS
global replacement does.  The `skip` state consumes the remainder of a match
already replaced. -/
def replaceSubAux (pat rep : List Char) : ℕ → List Char → List Char
  | _, [] => []
  | s + 1, _ :: rest => replaceSubAux pat rep s rest
  | 0, c :: rest =>
    if 0 < pat.length && pat.isPrefixOf (c :: rest) then
      rep ++ replaceSubAux pat rep (pat.length - 1) rest
    else c :: replaceSubAux pat rep 0 rest

def replaceSub (pat rep l : List Char) : List Char := replaceSubAux pat rep 0 l

/-- Models source lines 184-189: the six entity replacements, in source
order (`&nbsp;` first, then `&amp;`, `&lt;`, `&gt;`, `&quot;`, `&#39;`). -/
def decodeEntities (l : List Char) : List Char :=
  replaceSub ("&#39;".data) [Char.ofNat 39]
    (replaceSub ("&quot;".data) ['"']
      (replaceSub ("&gt;".data) ['>']
        (replaceSub ("&lt;".data) ['<']
          (replaceSub ("&amp;".data) ['&']
            (replaceSub ("&nbsp;".data) [' '] l)))))

/-- Models `replace(/\s+/g, ' ')` (source line 192): every maximal run of JS
whitespace becomes a single space. -/
def collapseWs : List Char → List Char
  | [] => []
  | c :: rest =>
    if isJsSpace c then
      if (collapseWs rest).head? = some ' ' then collapseWs rest
      else ' ' :: collapseWs rest
    else c :: collapseWs rest

/-- Models `replace(/\n\s+/g, '\n')` (source line 193): a newline followed by
a whitespace run keeps only the newline.  The flag records that the previous
character was such a newline and its run is being consumed. -/
def nlSpacesAux : Bool → List Char → List Char
  | _, [] => []
  | true, c :: rest =>
    if isJsSpace c then nlSpacesAux true rest else c :: nlSpacesAux false rest
  | false, c :: rest =>
    if c = '\n' then '\n' :: nlSpacesAux true rest else c :: nlSpacesAux false rest

def nlSpaces (l : List Char) : List Char := nlSpacesAux false l

/-- Models `replace(/\n+/g, '\n\n')` (source line 194): every maximal run of
newlines becomes exactly two newlines.  The flag records that the current
newline run has already been replaced. -/
def nlCollapseAux : Bool → List Char → List Char
  | _, [] => []
  | flag, c :: rest =>
    if c = '\n' then
      if flag then nlCollapseAux true rest
      else '\n' :: '\n' :: nlCollapseAux true rest
    else c :: nlCollapseAux false rest

def nlCollapse (l : List Char) : List Char := nlCollapseAux false l

/-- Models `parseAndCleanHTML` (source lines 163-197): the Markup Reducer.
The steps are applied in source order. -/
def parseAndCleanHTML (html : List Char) : List Char :=
  jsTrim (nlCollapse (nlSpaces (collapseWs (decodeEntities (stripTags (closeBlocks
    (stripChrome (stripComments (stripStyleBlocks (stripScriptBlocks html))))))))))

/-! ## Relevance Ranker -/

/-- JS division on ordinary numbers.  At every call site below the divisor is
zero only when the dividend is zero as well (see the score lemmas), in which
case JS produces `NaN`; `none` models that. -/
noncomputable def jsDiv (x y : ℝ) : Option ℝ := if y = 0 then none else some (x / y)

/-- `ℚ`-valued variant of `jsDiv`, for the lenient scorer whose arithmetic is
exact. -/
def jsDivQ (x y : ℚ) : Option ℚ := if y = 0 then none else some (x / y)

/-- Characters with a special meaning inside a JS regular expression.  A word
made of other characters compiles to a regex matching itself literally. -/
def regexMeta (c : Char) : Bool :=
  (['\\', '^', '$', '.', '*', '+', '?', '(', ')', '[', ']', '\x7b', '\x7d', '|'] : List Char).contains c

/-- A query word that `new RegExp` treats as a literal string. -/
def plainWord (w : List Char) : Bool := w.all (fun c => !(regexMeta c))

/-- Paren-scan for regex group balance: `depth`-counting scan that fails on an
unmatched closing or opening parenthesis. -/
def parenScanOk : ℕ → List Char → Bool
  | d, [] => d = 0
  | d, c :: r =>
    if c = '(' then parenScanOk (d + 1) r
    else if c = ')' then (if d = 0 then false else parenScanOk (d - 1) r)
    else parenScanOk d r

/-- `new RegExp('\\b' + word + '\\b')` (source line 299) raises `SyntaxError`
whenever `word` contains unbalanced parentheses (among other invalid
patterns); this models that failure condition for words without an escaping
backslash or character class, which covers every input the claims touch.  For
a `plainWord` the constructor always succeeds. -/
def regexCompileFails (w : List Char) : Bool := !parenScanOk 0 w

/-- Number of positions of `content` at which `word` occurs with a regex word
boundary `\b` on both sides (source line 299,
`match(new RegExp('\\b' + word + '\\b', 'g'))`).  For a word consisting of
word characters — every `plainWord` query word with letters and digits — such
matches can never overlap, so the position count equals the count of global
regex matches.  `prev` is the character preceding the current position. -/
def countExactAux (word : List Char) : Option Char → List Char → ℕ
  | _, [] => 0
  | prev, c :: rest =>
    (if word.isPrefixOf (c :: rest)
        && ((prev.elim false isWordChar) != (word.head?.elim false isWordChar))
        && ((((c :: rest).drop word.length).head?.elim false isWordChar)
             != (word.getLast?.elim false isWordChar))
     then 1 else 0)
    + countExactAux word (some c) rest

def countExact (word content : List Char) : ℕ := countExactAux word none content

/-- Number of non-overlapping occurrences of `word` in `content`, scanning
left to right (source line 303, `match(new RegExp(word, 'g'))` for a literal
word).  After a match, `skip` consumes the rest of the matched portion. -/
def countOccurAux (word : List Char) : ℕ → List Char → ℕ
  | _, [] => 0
  | s + 1, _ :: rest => countOccurAux word s rest
  | 0, c :: rest =>
    if word.isPrefixOf (c :: rest) then 1 + countOccurAux word (word.length - 1) rest
    else countOccurAux word 0 rest

def countOccur (word content : List Char) : ℕ := countOccurAux word 0 content

/-- The contribution of one query word to the strict raw score (source lines
297-310): `2 × exact + 0.5 × (occurrences − exact)` plus `1` when the word
occurs in the first 200 characters.  `cl` is the lowercased content. -/
def wordRaw (cl w : List Char) : ℚ :=
  (countExact w cl : ℚ) * 2 + ((countOccur w cl : ℚ) - (countExact w cl : ℚ)) * (1 / 2)
    + (if containsSub w (cl.take 200) then 1 else 0)

/-- The un-normalized strict score: the loop of source lines 297-310. -/
def strictRaw (content : List Char) (queryWords : List (List Char)) : ℚ :=
  ((queryWords.map (wordRaw (jsToLower content))).sum)

/-- Models `calculateRelevanceScore` (source lines 293-317):
`Math.min(score / (Math.log(content.length + 1) * queryWords.length), 1)`.
With an empty `queryWords` the divisor and dividend are both zero and the JS
result is `NaN` (`none`). -/
noncomputable def strictScore (content : List Char) (queryWords : List (List Char)) :
    Option ℝ :=
  (jsDiv (strictRaw content queryWords : ℝ)
      (Real.log ((content.length : ℝ) + 1) * (queryWords.length : ℝ))).map
    (fun x => min x 1)

/-- The five morphological variants of source lines 330-336: `word + 's'`,
`word + 'ing'`, `word + 'ed'`, `word.slice(0, -1)`, `word.slice(0, -2)`. -/
def variations (w : List Char) : List (List Char) :=
  [w ++ ['s'], w ++ ('i' :: 'n' :: 'g' :: []), w ++ ('e' :: 'd' :: []),
   w.dropLast, w.dropLast.dropLast]

/-- The contribution of one query word to the lenient raw score (source lines
323-344): `1` for a substring occurrence, plus `0.3` when some variant of
length `> 2` occurs as a substring (the inner loop breaks after the first such
variant, so the bonus is added at most once). -/
def lenientWordRaw (cl w : List Char) : ℚ :=
  (if containsSub w cl then 1 else 0)
    + (if (variations w).any (fun v => decide (2 < v.length) && containsSub v cl)
       then 3 / 10 else 0)

/-- The un-normalized lenient score: the loop of source lines 323-344. -/
def lenientRaw (content : List Char) (queryWords : List (List Char)) : ℚ :=
  ((queryWords.map (lenientWordRaw (jsToLower content))).sum)

/-- `/[a-z]/.test(contentLower)` (source line 350). -/
def hasLowerAscii (l : List Char) : Bool := l.any (fun c => 'a' ≤ c && c ≤ 'z')

/-- Models `calculateLenientRelevanceScore` (source lines 319-351):
`Math.max(score / queryWords.length, floor)` with `floor = 0.1` when the
lowercased content contains a lowercase ASCII letter and `0` otherwise.  With
an empty `queryWords` the division is `0 / 0 = NaN` and `Math.max(NaN, _)` is
`NaN` (`none`). -/
def lenientScore (content : List Char) (queryWords : List (List Char)) : Option ℚ :=
  (jsDivQ (lenientRaw content queryWords) (queryWords.length : ℚ)).map
    (fun x => max x (if hasLowerAscii (jsToLower content) then 1 / 10 else 0))

/-- Query preparation (source lines 252-253):
`query.toLowerCase().split(/\s+/).filter(word => word.length > 2)`. -/
def queryWordsOf (query : List Char) : List (List Char) :=
  (wordsOf (jsToLower query)).filter (fun w => 2 < w.length)

/-- `chunk.relevanceScore > 0` in JS: false for `NaN` (`none`), the sign test
otherwise. -/
def posScore : Option ℝ → Prop
  | some x => 0 < x
  | none => False

/-- The strict scoring pass (source lines 256-258): every chunk receives the
strict score of its content. -/
noncomputable def strictPass (chunks : List HTMLChunk) (queryWords : List (List Char)) :
    List HTMLChunk :=
  chunks.map fun c => { c with relevanceScore := strictScore c.content queryWords }

/-- The lenient re-scoring pass (source lines 269-271): every chunk receives
the lenient score of its content, overwriting the strict score. -/
noncomputable def lenientPass (chunks : List HTMLChunk) (queryWords : List (List Char)) :
    List HTMLChunk :=
  chunks.map fun c =>
    { c with relevanceScore := (lenientScore c.content queryWords).map (fun q => (q : ℝ)) }

open Classical in
/-- The comparator `(a, b) => b.relevanceScore - a.relevanceScore` of source
lines 263 and 275, as the `le` of a stable sort.  It is only ever applied
after the positive-score filter, where every score is `some`; `getD`
is immaterial there. -/
noncomputable def scoreDesc (a b : HTMLChunk) : Bool :=
  decide (b.relevanceScore.getD 0 ≤ a.relevanceScore.getD 0)

/-- The comparator `(a, b) => b.content.length - a.content.length` of source
line 283. -/
def lenDesc (a b : HTMLChunk) : Bool := decide (b.content.length ≤ a.content.length)

open Classical in
/-- `filter(score > 0).sort(by score desc).slice(0, maxResults)` (source lines
261-264 and 273-276).  JS `Array.prototype.sort` is stable, modelled by
`mergeSort`. -/
noncomputable def selectTop (scored : List HTMLChunk) (maxResults : ℕ) : List HTMLChunk :=
  (((scored.filter fun c => decide (posScore c.relevanceScore)).mergeSort scoreDesc).take
    maxResults)

/-- The last-resort tier (source lines 282-285): all chunks sorted by
descending content length, the first `min(maxResults, 3)`, each with its score
forced to `0.1`. -/
noncomputable def fallbackSelect (scored : List HTMLChunk) (maxResults : ℕ) : List HTMLChunk :=
  ((scored.mergeSort lenDesc).take (min maxResults 3)).map
    fun c => { c with relevanceScore := some ((1 : ℝ) / 10) }

/-- The first two tiers of the selection policy (source lines 261-277): the
value of the `sortedChunks` variable after the lenient re-scoring block.  When
the strict tier selected nothing and chunks exist, all chunks are re-scored
leniently and re-selected; otherwise the strict selection stands. -/
noncomputable def tier12 (chunks : List HTMLChunk) (queryWords : List (List Char))
    (maxResults : ℕ) : List HTMLChunk :=
  if (selectTop (strictPass chunks queryWords) maxResults).length = 0 ∧ 0 < chunks.length
  then selectTop (lenientPass chunks queryWords) maxResults
  else selectTop (strictPass chunks queryWords) maxResults

/-- The full selection policy (source lines 261-286): the value returned when
no exception is thrown.  When even the lenient tier selected nothing and
chunks exist, the longest-chunk fallback applies to the (by then
leniently-scored) chunk array. -/
noncomputable def rankSelection (chunks : List HTMLChunk) (queryWords : List (List Char))
    (maxResults : ℕ) : List HTMLChunk :=
  if (tier12 chunks queryWords maxResults).length = 0 ∧ 0 < chunks.length
  then fallbackSelect (lenientPass chunks queryWords) maxResults
  else tier12 chunks queryWords maxResults

/-- Models `performSemanticSearch` (source lines 249-291).  The `Except`
models the exception channel: when at least one chunk is scored (`chunks`
non-empty) and some query word fails regex compilation, the first call to
`calculateRelevanceScore` throws.  Otherwise the three-tier selection policy
of lines 261-286 runs: strict, then (when nothing qualified and chunks exist)
lenient, then (when still nothing) the longest-chunk fallback. -/
noncomputable def performSemanticSearch (chunks : List HTMLChunk) (query : List Char)
    (maxResults : ℕ) : Except Unit (List HTMLChunk) :=
  if 0 < chunks.length ∧ (queryWordsOf query).any regexCompileFails then .error ()
  else .ok (rankSelection chunks (queryWordsOf query) maxResults)

/-! ## Content Fetcher -/

/-- The thin-content heuristic of source line 132:
`content.length < 500 || !content.includes('<body')`. -/
def thinContent (content : List Char) : Bool :=
  decide (content.length < 500) || !(containsSub ("<body".data) content)

/-- Models the fallback portion of `fetchWebsiteContent` (source lines
128-155), after a successful primary fetch returned `primary`.  The network
outcome of the secondary (Jina Reader) request is a parameter: `Except.ok j`
when the response was ok with body `j`, `Except.error ()` when the request
threw or the response status was not ok (both of which the source treats
alike by keeping the primary content).  The secondary body replaces the
primary exactly when it is strictly longer (line 145). -/
def fetchContentResult (primary : List Char) (secondary : Except Unit (List Char)) :
    List Char :=
  if thinContent primary then
    match secondary with
    | .ok j => if primary.length < j.length then j else primary
    | .error _ => primary
  else primary

/-- No two adjacent characters are both JS whitespace. -/
def noWsPair (l : List Char) : Prop :=
  List.Chain' (fun a b => ¬(isJsSpace a = true ∧ isJsSpace b = true)) l

/-- A JS relevance score that is an actual real number in `[0, 1]` (`NaN`,
modelled `none`, is not). -/
def scoreInUnit (o : Option ℝ) : Prop := ∃ x, o = some x ∧ 0 ≤ x ∧ x ≤ 1

/-! ## Concrete evaluations of the embedded functions (spec scenarios) -/

example : parseAndCleanHTML ("<p>The quick brown fox</p><script>evil()</script>".data) =
    "The quick brown fox".data := by rfl

example : parseAndCleanHTML ("&amp;nbsp;".data) = "&nbsp;".data := by rfl

example : parseAndCleanHTML ("&lt;b&gt;".data) = "<b>".data := by rfl

example : parseAndCleanHTML ['\x01'] = ['\x01'] := by rfl

example : parseAndCleanHTML ("&amp;amp;".data) = "&amp;".data := by rfl

example : parseAndCleanHTML ("&amp;".data) = ['&'] := by rfl

example : tokenizeAndChunk ['a'] 1 = none := by rfl

example : lenientScore ("cat cats".data) ["cat".data] = some (13 / 10) := by
  have hc : containsSub ("cat".data) (jsToLower ("cat cats".data)) = true := by decide
  have hv : ((variations ("cat".data)).any
      fun v => decide (2 < v.length) && containsSub v (jsToLower ("cat cats".data))) = true := by
    decide
  have hl : hasLowerAscii (jsToLower ("cat cats".data)) = true := by decide
  simp [lenientScore, lenientRaw, lenientWordRaw, jsDivQ, hc, hv, hl]
  norm_num

example : strictRaw ("the quick brown fox".data) ["fox".data, "jump".data] = 3 := by
  have h1 : countExact ("fox".data) (jsToLower ("the quick brown fox".data)) = 1 := by decide
  have h2 : countOccur ("fox".data) (jsToLower ("the quick brown fox".data)) = 1 := by decide
  have h3 : containsSub ("fox".data) ((jsToLower ("the quick brown fox".data)).take 200) = true := by
    decide
  have h4 : countExact ("jump".data) (jsToLower ("the quick brown fox".data)) = 0 := by decide
  have h5 : countOccur ("jump".data) (jsToLower ("the quick brown fox".data)) = 0 := by decide
  have h6 : containsSub ("jump".data)
      ((jsToLower ("the quick brown fox".data)).take 200) = false := by decide
  simp [strictRaw, wordRaw, h1, h2, h3, h4, h5, h6]
  norm_num

example : queryWordsOf ("a an the".data) = [['t', 'h', 'e']] := by rfl

example : queryWordsOf ['a'] = [] := by rfl

example : (tokenizeAndChunk "a b c".data 2).map (List.map HTMLChunk.content) =
    some [['a'], ['b'], ['c']] := by rfl

example : (tokenizeAndChunk "a b c d e f".data 4).map (List.map HTMLChunk.chunkIndex) =
    some [1, 2] := by rfl

/-! ## Whitespace-shape lemmas for the Markup Reducer -/

theorem mem_collapseWs_ws (l : List Char) :
    ∀ c ∈ collapseWs l, isJsSpace c = true → c = ' ' := by
  induction l with
  | nil => simp [collapseWs]
  | cons a rest ih =>
    intro c hc hws
    rw [collapseWs] at hc
    by_cases ha : isJsSpace a = true
    · rw [if_pos ha] at hc
      by_cases hh : (collapseWs rest).head? = some ' '
      · rw [if_pos hh] at hc
        exact ih c hc hws
      · rw [if_neg hh] at hc
        rcases List.mem_cons.1 hc with rfl | hc'
        · rfl
        · exact ih c hc' hws
    · rw [if_neg ha] at hc
      rcases List.mem_cons.1 hc with rfl | hc'
      · exact absurd hws ha
      · exact ih c hc' hws

theorem noWsPair_collapseWs (l : List Char) : noWsPair (collapseWs l) := by
  induction l with
  | nil => simp [collapseWs, noWsPair]
  | cons a rest ih =>
    rw [collapseWs]
    by_cases ha : isJsSpace a = true
    · rw [if_pos ha]
      by_cases hh : (collapseWs rest).head? = some ' '
      · rwa [if_pos hh]
      · rw [if_neg hh]
        refine List.chain'_cons'.2 ⟨?_, ih⟩
        intro y hy hcontra
        have hy' : y = ' ' :=
          mem_collapseWs_ws rest y (List.mem_of_mem_head? hy) hcontra.2
        exact hh (hy' ▸ hy)
    · rw [if_neg ha]
      refine List.chain'_cons'.2 ⟨?_, ih⟩
      intro y _ hcontra
      exact ha hcontra.1

theorem collapseWs_id (l : List Char) (h1 : ∀ c ∈ l, isJsSpace c = true → c = ' ')
    (h2 : noWsPair l) : collapseWs l = l := by
  induction l with
  | nil => rfl
  | cons a rest ih =>
    have hrest : collapseWs rest = rest :=
      ih (fun c hc => h1 c (List.mem_cons_of_mem a hc)) h2.tail
    rw [collapseWs]
    by_cases ha : isJsSpace a = true
    · have haeq : a = ' ' := h1 a (List.mem_cons_self a rest) ha
      have hh : (collapseWs rest).head? ≠ some ' ' := by
        rw [hrest]
        cases rest with
        | nil => simp
        | cons b rest' =>
          have hab := (List.chain'_cons (l := rest')).1 h2
          intro hhead
          have hb : b = ' ' := by simpa using hhead
          refine hab.1 ⟨ha, ?_⟩
          rw [hb]
          decide
      rw [if_pos ha, if_neg hh, hrest, haeq]
    · rw [if_neg ha, hrest]

theorem nlSpacesAux_id (l : List Char) (h : '\n' ∉ l) : nlSpacesAux false l = l := by
  induction l with
  | nil => rfl
  | cons a rest ih =>
    have ha : ¬(a = '\n') := fun hc => h (hc ▸ List.mem_cons_self a rest)
    simp only [nlSpacesAux, if_neg ha]
    exact congrArg (a :: ·) (ih (fun hc => h (List.mem_cons_of_mem a hc)))

theorem nlCollapseAux_id (l : List Char) (h : '\n' ∉ l) : nlCollapseAux false l = l := by
  induction l with
  | nil => rfl
  | cons a rest ih =>
    have ha : ¬(a = '\n') := fun hc => h (hc ▸ List.mem_cons_self a rest)
    simp only [nlCollapseAux, if_neg ha]
    exact congrArg (a :: ·) (ih (fun hc => h (List.mem_cons_of_mem a hc)))

theorem mem_trimEndWs (l : List Char) : ∀ c ∈ trimEndWs l, c ∈ l := by
  induction l with
  | nil => simp [trimEndWs]
  | cons a rest ih =>
    intro c hc
    rw [trimEndWs] at hc
    rcases hr : trimEndWs rest with _ | ⟨d, r⟩
    · rw [hr] at hc
      by_cases ha : isJsSpace a = true
      · simp [ha] at hc
      · simp [ha] at hc
        simp [hc]
    · rw [hr] at hc
      rcases List.mem_cons.1 hc with rfl | hcd
      · exact List.mem_cons_self c rest
      · exact List.mem_cons_of_mem a (ih c (hr ▸ hcd))

theorem trimEndWs_head? (l : List Char) :
    trimEndWs l = [] ∨ (trimEndWs l).head? = l.head? := by
  cases l with
  | nil => exact Or.inl rfl
  | cons a rest =>
    rw [trimEndWs]
    rcases trimEndWs rest with _ | ⟨d, r⟩
    · by_cases ha : isJsSpace a = true
      · simp [ha]
      · simp [ha]
    · simp

theorem noWsPair_trimEndWs (l : List Char) (h : noWsPair l) : noWsPair (trimEndWs l) := by
  induction l with
  | nil => simpa [trimEndWs] using h
  | cons a rest ih =>
    rw [trimEndWs]
    rcases hr : trimEndWs rest with _ | ⟨d, r⟩
    · by_cases ha : isJsSpace a = true
      · simp [ha, noWsPair]
      · simp [ha, noWsPair]
    · refine List.chain'_cons'.2 ⟨?_, hr ▸ ih h.tail⟩
      intro y hy
      have hd : d = y := by simpa using hy
      rcases trimEndWs_head? rest with hnil | hhead
      · rw [hnil] at hr; exact absurd hr (by simp)
      · rw [hr] at hhead
        have hrh : y ∈ rest.head? := by
          rw [← hhead, hd]
          simp
        exact (List.chain'_cons'.1 h).1 y hrh

theorem getLast?_trimEndWs (l : List Char) :
    trimEndWs l = [] ∨ ∃ c, (trimEndWs l).getLast? = some c ∧ isJsSpace c = false := by
  induction l with
  | nil => exact Or.inl rfl
  | cons a rest ih =>
    rw [trimEndWs]
    rcases hr : trimEndWs rest with _ | ⟨d, r⟩
    · by_cases ha : isJsSpace a = true
      · simp [ha]
      · refine Or.inr ⟨a, ?_, by simpa using ha⟩
        simp [ha]
    · rcases ih with hnil | ⟨c, hc, hcs⟩
      · rw [hnil] at hr; exact absurd hr (by simp)
      · refine Or.inr ⟨c, ?_, hcs⟩
        rw [hr] at hc
        simpa [List.getLast?_cons_cons] using hc

theorem noWsPair_dropWhile (l : List Char) (h : noWsPair l) :
    noWsPair (l.dropWhile isJsSpace) := by
  induction l with
  | nil => simpa using h
  | cons a rest ih =>
    by_cases ha : isJsSpace a = true
    · rw [List.dropWhile_cons, if_pos ha]
      exact ih h.tail
    · rwa [List.dropWhile_cons, if_neg ha]

/-- The two whitespace steps of source lines 193-194 are inert: after line 192
has collapsed every whitespace run to a single space, no newline remains, so
the Markup Reducer reduces to trim-after-collapse on the entity-decoded,
tag-free text. -/
theorem parseAndCleanHTML_eq (html : List Char) :
    parseAndCleanHTML html =
      jsTrim (collapseWs (decodeEntities (stripTags (closeBlocks (stripChrome
        (stripComments (stripStyleBlocks (stripScriptBlocks html)))))))) := by
  have hn : '\n' ∉ collapseWs (decodeEntities (stripTags (closeBlocks (stripChrome
      (stripComments (stripStyleBlocks (stripScriptBlocks html))))))) := by
    intro hmem
    have := mem_collapseWs_ws _ '\n' hmem (by decide)
    exact absurd this (by decide)
  unfold parseAndCleanHTML
  rw [nlSpaces, nlSpacesAux_id _ hn, nlCollapse, nlCollapseAux_id _ hn]

theorem mem_jsTrim (l : List Char) : ∀ c ∈ jsTrim l, c ∈ l := by
  intro c hc
  exact (List.dropWhile_sublist isJsSpace).subset (mem_trimEndWs _ c hc)

theorem ws_space_trim_collapse (u : List Char) :
    ∀ c ∈ jsTrim (collapseWs u), isJsSpace c = true → c = ' ' := by
  intro c hc hws
  exact mem_collapseWs_ws _ c (mem_jsTrim _ c hc) hws

theorem noWsPair_trim_collapse (u : List Char) : noWsPair (jsTrim (collapseWs u)) := by
  rw [jsTrim]
  exact noWsPair_trimEndWs _ (noWsPair_dropWhile _ (noWsPair_collapseWs _))

theorem head?_jsTrim (l : List Char) :
    ∀ c, (jsTrim l).head? = some c → isJsSpace c = false := by
  intro c hc
  rcases trimEndWs_head? (l.dropWhile isJsSpace) with hnil | hhead
  · rw [jsTrim, hnil] at hc
    simp at hc
  · rw [jsTrim, hhead] at hc
    have := List.head?_dropWhile_not isJsSpace l
    rw [hc] at this
    exact this

theorem getLast?_jsTrim (l : List Char) :
    ∀ c, (jsTrim l).getLast? = some c → isJsSpace c = false := by
  intro c hc
  rcases getLast?_trimEndWs (l.dropWhile isJsSpace) with hnil | ⟨d, hd, hds⟩
  · rw [jsTrim, hnil] at hc
    simp at hc
  · rw [jsTrim] at hc
    rw [hc] at hd
    obtain rfl : c = d := by simpa using hd
    exact hds

theorem parseAndCleanHTML_ws_space (s : List Char) :
    ∀ c ∈ parseAndCleanHTML s, isJsSpace c = true → c = ' ' := by
  rw [parseAndCleanHTML_eq]
  exact ws_space_trim_collapse _

set_option maxHeartbeats 1000000 in
theorem noWsPair_parseAndCleanHTML (s : List Char) : noWsPair (parseAndCleanHTML s) := by
  rw [parseAndCleanHTML_eq]
  exact noWsPair_trim_collapse (decodeEntities (stripTags (closeBlocks (stripChrome
    (stripComments (stripStyleBlocks (stripScriptBlocks s)))))))

theorem head?_parseAndCleanHTML (s : List Char) :
    ∀ c, (parseAndCleanHTML s).head? = some c → isJsSpace c = false := by
  rw [parseAndCleanHTML_eq]
  exact head?_jsTrim _

theorem getLast?_parseAndCleanHTML (s : List Char) :
    ∀ c, (parseAndCleanHTML s).getLast? = some c → isJsSpace c = false := by
  rw [parseAndCleanHTML_eq]
  exact getLast?_jsTrim _

/-! ## Identity of the Markup Reducer on inert inputs -/

theorem stripBlockAux_id (tag l : List Char) (h : '<' ∉ l) :
    ∀ f, stripBlockAux tag f l = l := by
  induction l with
  | nil => intro f; cases f <;> rfl
  | cons a rest ih =>
    intro f
    cases f with
    | zero => rfl
    | succ f =>
      have ha : ¬(a = '<') := fun hc => h (hc ▸ List.mem_cons_self a rest)
      rw [stripBlockAux, if_neg ha]
      exact congrArg (a :: ·) (ih (fun hc => h (List.mem_cons_of_mem a hc)) f)

theorem stripCommentsAux_id (l : List Char) (h : '<' ∉ l) :
    ∀ f, stripCommentsAux f l = l := by
  induction l with
  | nil => intro f; cases f <;> rfl
  | cons a rest ih =>
    intro f
    cases f with
    | zero => rfl
    | succ f =>
      have ha : ¬(a = '<') := fun hc => h (hc ▸ List.mem_cons_self a rest)
      rw [stripCommentsAux, if_neg ha]
      exact congrArg (a :: ·) (ih (fun hc => h (List.mem_cons_of_mem a hc)) f)

theorem stripChromeAux_id (l : List Char) (h : '<' ∉ l) :
    ∀ f, stripChromeAux f l = l := by
  induction l with
  | nil => intro f; cases f <;> rfl
  | cons a rest ih =>
    intro f
    cases f with
    | zero => rfl
    | succ f =>
      have ha : ¬(a = '<') := fun hc => h (hc ▸ List.mem_cons_self a rest)
      rw [stripChromeAux, if_neg ha]
      exact congrArg (a :: ·) (ih (fun hc => h (List.mem_cons_of_mem a hc)) f)

theorem stripTagsAux_id (l : List Char) (h : '<' ∉ l) :
    ∀ f, stripTagsAux f l = l := by
  induction l with
  | nil => intro f; cases f <;> rfl
  | cons a rest ih =>
    intro f
    cases f with
    | zero => rfl
    | succ f =>
      have ha : ¬(a = '<') := fun hc => h (hc ▸ List.mem_cons_self a rest)
      rw [stripTagsAux, if_neg ha]
      exact congrArg (a :: ·) (ih (fun hc => h (List.mem_cons_of_mem a hc)) f)

theorem closeBlocksAux_id (l : List Char) (h : '<' ∉ l) : closeBlocksAux 0 l = l := by
  induction l with
  | nil => rfl
  | cons a rest ih =>
    have ha : ¬(a = '<') := fun hc => h (hc ▸ List.mem_cons_self a rest)
    rw [closeBlocksAux, if_neg ha]
    exact congrArg (a :: ·) (ih (fun hc => h (List.mem_cons_of_mem a hc)))

theorem replaceSubAux_id (p : Char) (ps rep l : List Char) (h : p ∉ l) :
    replaceSubAux (p :: ps) rep 0 l = l := by
  induction l with
  | nil => rfl
  | cons a rest ih =>
    have hpre : (p :: ps).isPrefixOf (a :: rest) = false := by
      rw [List.isPrefixOf_cons₂]
      have : ¬(p = a) := fun hc => h (hc ▸ List.mem_cons_self a rest)
      simp [this]
    rw [replaceSubAux, hpre]
    simp only [Bool.and_false, Bool.false_eq_true, if_false]
    exact congrArg (a :: ·) (ih (fun hc => h (List.mem_cons_of_mem a hc)))

theorem replaceSub_id (pat rep l : List Char) (p : Char) (hp : pat.head? = some p)
    (h : p ∉ l) : replaceSub pat rep l = l := by
  cases pat with
  | nil => simp at hp
  | cons q ps =>
    obtain rfl : q = p := by simpa using hp
    exact replaceSubAux_id q ps rep l h

theorem decodeEntities_id (l : List Char) (h : '&' ∉ l) : decodeEntities l = l := by
  unfold decodeEntities
  rw [replaceSub_id ("&nbsp;".data) [' '] l '&' rfl h,
    replaceSub_id ("&amp;".data) ['&'] l '&' rfl h,
    replaceSub_id ("&lt;".data) ['<'] l '&' rfl h,
    replaceSub_id ("&gt;".data) ['>'] l '&' rfl h,
    replaceSub_id ("&quot;".data) ['"'] l '&' rfl h,
    replaceSub_id ("&#39;".data) [Char.ofNat 39] l '&' rfl h]

theorem dropWhile_ws_id (l : List Char)
    (h : ∀ c, l.head? = some c → isJsSpace c = false) : l.dropWhile isJsSpace = l := by
  cases l with
  | nil => rfl
  | cons a rest =>
    rw [List.dropWhile_cons, if_neg]
    simp [h a rfl]

theorem trimEndWs_id (l : List Char)
    (h : ∀ c, l.getLast? = some c → isJsSpace c = false) : trimEndWs l = l := by
  induction l with
  | nil => rfl
  | cons a rest ih =>
    rw [trimEndWs]
    cases rest with
    | nil =>
      have ha := h a (by simp)
      simp [trimEndWs, ha]
    | cons b rest' =>
      have hr : trimEndWs (b :: rest') = b :: rest' :=
        ih (fun c hc => h c (by rw [List.getLast?_cons_cons]; exact hc))
      rw [hr]

theorem jsTrim_id (l : List Char)
    (hh : ∀ c, l.head? = some c → isJsSpace c = false)
    (hl : ∀ c, l.getLast? = some c → isJsSpace c = false) : jsTrim l = l := by
  rw [jsTrim, dropWhile_ws_id l hh, trimEndWs_id l hl]

/-- A text without angle bracket openings and ampersands whose whitespace is
already in the normal form the Markup Reducer produces is a fixed point of the
Markup Reducer: every stage leaves it unchanged. -/
theorem parseAndCleanHTML_fixed (t : List Char) (h1 : '<' ∉ t) (h2 : '&' ∉ t)
    (hws : ∀ c ∈ t, isJsSpace c = true → c = ' ') (hnp : noWsPair t)
    (hh : ∀ c, t.head? = some c → isJsSpace c = false)
    (hl : ∀ c, t.getLast? = some c → isJsSpace c = false) :
    parseAndCleanHTML t = t := by
  have hnl : '\n' ∉ t := by
    intro hmem
    exact absurd (hws '\n' hmem (by decide)) (by decide)
  have e1 : stripScriptBlocks t = t := by
    rw [stripScriptBlocks]; exact stripBlockAux_id _ t h1 _
  have e2 : stripStyleBlocks t = t := by
    rw [stripStyleBlocks]; exact stripBlockAux_id _ t h1 _
  have e3 : stripComments t = t := by
    rw [stripComments]; exact stripCommentsAux_id t h1 _
  have e4 : stripChrome t = t := by
    rw [stripChrome]; exact stripChromeAux_id t h1 _
  have e5 : closeBlocks t = t := by
    rw [closeBlocks]; exact closeBlocksAux_id t h1
  have e6 : stripTags t = t := by
    rw [stripTags]; exact stripTagsAux_id t h1 _
  have e7 : decodeEntities t = t := decodeEntities_id t h2
  have e8 : collapseWs t = t := collapseWs_id t hws hnp
  have e9 : nlSpaces t = t := by
    rw [nlSpaces]; exact nlSpacesAux_id t hnl
  have e10 : nlCollapse t = t := by
    rw [nlCollapse]; exact nlCollapseAux_id t hnl
  unfold parseAndCleanHTML
  rw [e1, e2, e3, e4, e5, e6, e7, e8, e9, e10]
  exact jsTrim_id t hh hl

/-! ## Chunker lemmas -/

theorem wordsOfAux_words (l : List Char) : ∀ cur, (∀ c ∈ cur, isJsSpace c = false) →
    ∀ w ∈ wordsOfAux cur l, w ≠ [] ∧ ∀ c ∈ w, isJsSpace c = false := by
  induction l with
  | nil =>
    intro cur hcur w hw
    rw [wordsOfAux] at hw
    by_cases hc : cur = []
    · simp [hc] at hw
    · rw [if_neg hc] at hw
      obtain rfl : w = cur := by simpa using hw
      exact ⟨hc, hcur⟩
  | cons a rest ih =>
    intro cur hcur w hw
    rw [wordsOfAux] at hw
    by_cases ha : isJsSpace a = true
    · rw [if_pos ha] at hw
      by_cases hc : cur = []
      · rw [if_pos hc] at hw
        exact ih [] (by simp) w hw
      · rw [if_neg hc] at hw
        rcases List.mem_cons.1 hw with rfl | hw'
        · exact ⟨hc, hcur⟩
        · exact ih [] (by simp) w hw'
    · rw [if_neg ha] at hw
      refine ih (cur ++ [a]) ?_ w hw
      intro c hcmem
      rcases List.mem_append.1 hcmem with h | h
      · exact hcur c h
      · obtain rfl : c = a := by simpa using h
        simpa using ha

/-- Every word produced by `wordsOf` is non-empty and free of JS whitespace. -/
theorem wordsOf_words (l : List Char) :
    ∀ w ∈ wordsOf l, w ≠ [] ∧ ∀ c ∈ w, isJsSpace c = false :=
  wordsOfAux_words l [] (by simp)

theorem chunksOfAux_flatten (w : ℕ) :
    ∀ (f : ℕ) (l : List α), l.length ≤ f → (chunksOfAux w f l).flatten = l := by
  intro f
  induction f with
  | zero =>
    intro l hl
    have : l = [] := by
      cases l with
      | nil => rfl
      | cons => simp at hl
    subst this
    rfl
  | succ f ih =>
    intro l hl
    cases l with
    | nil => rfl
    | cons x xs =>
      rw [chunksOfAux, List.flatten_cons]
      have hlen : (xs.drop (w - 1)).length ≤ f := by
        rw [List.length_drop]
        have : xs.length ≤ f := by simpa using hl
        omega
      rw [ih _ hlen]
      simp

theorem chunksOfAux_ne_nil (w : ℕ) :
    ∀ (f : ℕ) (l : List α), ∀ g ∈ chunksOfAux w f l, g ≠ [] := by
  intro f
  induction f with
  | zero =>
    intro l g hg
    cases l with
    | nil => simp [chunksOfAux] at hg
    | cons x xs => simp [chunksOfAux] at hg
  | succ f ih =>
    intro l g hg
    cases l with
    | nil => simp [chunksOfAux] at hg
    | cons x xs =>
      rw [chunksOfAux] at hg
      rcases List.mem_cons.1 hg with rfl | hg'
      · simp
      · exact ih _ g hg'

theorem joinSpace_ne_nil (g : List (List Char)) (hg : g ≠ [])
    (hx : ∀ x ∈ g, x ≠ []) : joinSpace g ≠ [] := by
  cases g with
  | nil => exact absurd rfl hg
  | cons x gs =>
    cases gs with
    | nil => simpa [joinSpace] using hx x (by simp)
    | cons y gs' =>
      rw [joinSpace]
      simp

/-- Unfolding `joinSpace` at a cons with a non-empty tail. -/
theorem joinSpace_cons_ne (x : List Char) (g : List (List Char)) (hg : g ≠ []) :
    joinSpace (x :: g) = x ++ ' ' :: joinSpace g := by
  cases g with
  | nil => exact absurd rfl hg
  | cons y gs => rw [joinSpace]

theorem head?_joinSpace (g : List (List Char))
    (hx : ∀ x ∈ g, x ≠ [] ∧ ∀ c ∈ x, isJsSpace c = false) :
    ∀ c, (joinSpace g).head? = some c → isJsSpace c = false := by
  cases g with
  | nil => simp [joinSpace]
  | cons x gs =>
    intro c hc
    obtain ⟨hx1, hx2⟩ := hx x (by simp)
    cases gs with
    | nil =>
      rw [joinSpace] at hc
      exact hx2 c (List.mem_of_mem_head? hc)
    | cons y gs' =>
      rw [joinSpace] at hc
      cases x with
      | nil => exact absurd rfl hx1
      | cons a xs =>
        have hac : a = c := by simpa using hc
        exact hac ▸ hx2 a (by simp)

theorem getLast?_joinSpace (g : List (List Char))
    (hx : ∀ x ∈ g, x ≠ [] ∧ ∀ c ∈ x, isJsSpace c = false) :
    ∀ c, (joinSpace g).getLast? = some c → isJsSpace c = false := by
  induction g with
  | nil => simp [joinSpace]
  | cons x gs ih =>
    intro c hc
    obtain ⟨hx1, hx2⟩ := hx x (by simp)
    cases gs with
    | nil =>
      rw [joinSpace] at hc
      exact hx2 c (List.mem_of_getLast?_eq_some hc)
    | cons y gs' =>
      rw [joinSpace] at hc
      have hne : (' ' :: joinSpace (y :: gs')) ≠ [] := by simp
      rw [List.getLast?_append_of_ne_nil x hne] at hc
      have hjne : joinSpace (y :: gs') ≠ [] :=
        joinSpace_ne_nil (y :: gs') (by simp)
          (fun z hz => (hx z (List.mem_cons_of_mem x hz)).1)
      cases hj : joinSpace (y :: gs') with
      | nil => exact absurd hj hjne
      | cons d t =>
        rw [hj, List.getLast?_cons_cons] at hc
        refine ih (fun z hz => hx z (List.mem_cons_of_mem x hz)) c ?_
        rw [hj]
        exact hc

/-- On a non-empty group of non-empty whitespace-free words, the loop body
pushes exactly one chunk carrying the space-joined content and the next
1-based index. -/
theorem pushChunk_emits (m : ℕ) (acc : List HTMLChunk) (g : List (List Char))
    (hg : g ≠ []) (hw : ∀ x ∈ g, x ≠ [] ∧ ∀ c ∈ x, isJsSpace c = false) :
    pushChunk m acc g =
      acc ++ [{ content := joinSpace g
                tokens := min (((joinSpace g).length + 3) / 4) m
                chunkIndex := acc.length + 1
                htmlTagContext := detectContentContext (joinSpace g)
                relevanceScore := some 0 }] := by
  have htrim : jsTrim (joinSpace g) = joinSpace g :=
    jsTrim_id (joinSpace g) (head?_joinSpace g hw) (getLast?_joinSpace g hw)
  have hne : joinSpace g ≠ [] := joinSpace_ne_nil g hg (fun x hx => (hw x hx).1)
  have hpos : 0 < (jsTrim (joinSpace g)).length := by
    rw [htrim]
    exact List.length_pos.2 hne
  simp only [pushChunk]
  rw [if_pos hpos, htrim]

/-- The chunk-emitting fold, on groups that all push, appends one chunk per
group: indices continue the 1-based count and contents are the space-joined
groups. -/
theorem foldl_pushChunk (m : ℕ) (groups : List (List (List Char)))
    (hgs : ∀ g ∈ groups, g ≠ [] ∧ ∀ x ∈ g, x ≠ [] ∧ ∀ c ∈ x, isJsSpace c = false) :
    ∀ acc : List HTMLChunk,
      ((groups.foldl (pushChunk m) acc).map (fun c => c.chunkIndex) =
        acc.map (fun c => c.chunkIndex) ++ List.range' (acc.length + 1) groups.length) ∧
      ((groups.foldl (pushChunk m) acc).map (fun c => c.content) =
        acc.map (fun c => c.content) ++ groups.map joinSpace) := by
  induction groups with
  | nil => intro acc; simp
  | cons g gs ih =>
    intro acc
    obtain ⟨hg, hw⟩ := hgs g (by simp)
    have hpush := pushChunk_emits m acc g hg hw
    have ihs := ih (fun g' hg' => hgs g' (List.mem_cons_of_mem g hg')) (pushChunk m acc g)
    rw [List.foldl_cons]
    refine ⟨?_, ?_⟩
    · rw [ihs.1, hpush]
      simp [List.range'_succ]
    · rw [ihs.2, hpush]
      simp

theorem joinSpace_append (a b : List (List Char)) (ha : a ≠ []) (hb : b ≠ []) :
    joinSpace (a ++ b) = joinSpace a ++ ' ' :: joinSpace b := by
  induction a with
  | nil => exact absurd rfl ha
  | cons x a' ih =>
    have habne : a' ++ b ≠ [] := by
      intro hcontra
      exact hb (List.append_eq_nil.1 hcontra).2
    rw [List.cons_append, joinSpace_cons_ne x (a' ++ b) habne]
    cases a' with
    | nil => simp [joinSpace]
    | cons z a'' =>
      rw [ih (by simp), joinSpace_cons_ne x (z :: a'') (by simp)]
      simp

theorem joinSpace_map_joinSpace (groups : List (List (List Char)))
    (hgs : ∀ g ∈ groups, g ≠ []) :
    joinSpace (groups.map joinSpace) = joinSpace groups.flatten := by
  induction groups with
  | nil => rfl
  | cons g gs ih =>
    cases gs with
    | nil => simp [joinSpace]
    | cons g2 gs' =>
      have hg : g ≠ [] := hgs g (by simp)
      have hflat_ne : (g2 :: gs').flatten ≠ [] := by
        have hg2 : g2 ≠ [] := hgs g2 (by simp)
        cases g2 with
        | nil => exact absurd rfl hg2
        | cons ww ws => simp
      rw [List.map_cons, List.flatten_cons]
      rw [joinSpace_cons_ne (joinSpace g) (List.map joinSpace (g2 :: gs')) (by simp)]
      rw [ih (fun g' hg' => hgs g' (List.mem_cons_of_mem g hg'))]
      rw [joinSpace_append g (g2 :: gs').flatten hg hflat_ne]


theorem chunksOf_flatten (w : ℕ) (l : List α) : (chunksOf w l).flatten = l :=
  chunksOfAux_flatten w l.length l le_rfl

theorem chunksOf_ne_nil (w : ℕ) (l : List α) : ∀ g ∈ chunksOf w l, g ≠ [] :=
  chunksOfAux_ne_nil w l.length l

/-! ## Ranker lemmas -/

theorem queryWordsOf_long (query : List Char) :
    ∀ w ∈ queryWordsOf query, 2 < w.length := by
  intro w hw
  have := List.mem_filter.1 hw
  simpa using this.2

theorem queryWordsOf_ne_nil (query : List Char) :
    ∀ w ∈ queryWordsOf query, w ≠ [] := by
  intro w hw hnil
  have := queryWordsOf_long query w hw
  rw [hnil] at this
  simp at this

theorem parenScanOk_of_no_paren (w : List Char) (h : '(' ∉ w ∧ ')' ∉ w) :
    ∀ d, parenScanOk d w = decide (d = 0) := by
  induction w with
  | nil => intro d; rfl
  | cons c r ih =>
    intro d
    have hc1 : ¬(c = '(') := fun hcc => h.1 (hcc ▸ List.mem_cons_self c r)
    have hc2 : ¬(c = ')') := fun hcc => h.2 (hcc ▸ List.mem_cons_self c r)
    have hr : '(' ∉ r ∧ ')' ∉ r :=
      ⟨fun hm => h.1 (List.mem_cons_of_mem c hm), fun hm => h.2 (List.mem_cons_of_mem c hm)⟩
    rw [parenScanOk, if_neg hc1, if_neg hc2]
    exact ih hr d

/-- A word without regex metacharacters compiles: `regexCompileFails` is
false on every `plainWord`. -/
theorem regexCompileFails_eq_false_of_plain (w : List Char) (h : plainWord w = true) :
    regexCompileFails w = false := by
  have hp : '(' ∉ w ∧ ')' ∉ w := by
    constructor <;> intro hm
    · have := (List.all_eq_true.1 h) '(' hm
      simp [regexMeta] at this
    · have := (List.all_eq_true.1 h) ')' hm
      simp [regexMeta] at this
  rw [regexCompileFails, parenScanOk_of_no_paren w hp 0]
  simp

theorem posScore_some (x : ℝ) : posScore (some x) ↔ 0 < x := Iff.rfl

theorem not_posScore_none : ¬ posScore none := fun h => h

theorem sum_eq_zero_each (l : List ℚ) (h0 : ∀ x ∈ l, 0 ≤ x) (hs : l.sum = 0) :
    ∀ x ∈ l, x = 0 := by
  induction l with
  | nil => simp
  | cons a r ih =>
    have ha : 0 ≤ a := h0 a (by simp)
    have hr : 0 ≤ r.sum := List.sum_nonneg (fun x hx => h0 x (List.mem_cons_of_mem a hx))
    rw [List.sum_cons] at hs
    have ha0 : a = 0 := by linarith
    have hr0 : r.sum = 0 := by linarith
    intro x hx
    rcases List.mem_cons.1 hx with rfl | hx'
    · exact ha0
    · exact ih (fun y hy => h0 y (List.mem_cons_of_mem a hy)) hr0 x hx'

theorem wordRaw_nonneg (cl w : List Char) : 0 ≤ wordRaw cl w := by
  rw [wordRaw]
  have h1 : (0 : ℚ) ≤ (countExact w cl : ℚ) := Nat.cast_nonneg _
  have h2 : (0 : ℚ) ≤ (countOccur w cl : ℚ) := Nat.cast_nonneg _
  have h3 : (0 : ℚ) ≤ (if containsSub w (cl.take 200) then (1 : ℚ) else 0) := by positivity
  linarith

theorem strictRaw_nonneg (content : List Char) (qw : List (List Char)) :
    0 ≤ strictRaw content qw := by
  rw [strictRaw]
  refine List.sum_nonneg ?_
  intro x hx
  obtain ⟨w, _, rfl⟩ := List.mem_map.1 hx
  exact wordRaw_nonneg _ w

theorem countOccur_pos_of_containsSub (w : List Char) (hw : w ≠ []) :
    ∀ l, containsSub w l = true → 1 ≤ countOccur w l := by
  intro l
  induction l with
  | nil =>
    intro h
    rw [containsSub] at h
    rw [List.isEmpty_iff] at h
    exact absurd h hw
  | cons c rest ih =>
    intro h
    rw [containsSub, Bool.or_eq_true] at h
    by_cases hpre : w.isPrefixOf (c :: rest) = true
    · rw [countOccur, countOccurAux, if_pos hpre]
      omega
    · rw [countOccur, countOccurAux, if_neg hpre]
      rcases h with h | h
      · exact absurd h hpre
      · exact ih h

theorem wordRaw_zero_no_occur (cl w : List Char) (h : wordRaw cl w = 0) :
    countOccur w cl = 0 := by
  rw [wordRaw] at h
  have h1 : (0 : ℚ) ≤ (countExact w cl : ℚ) := Nat.cast_nonneg _
  have h2 : (0 : ℚ) ≤ (countOccur w cl : ℚ) := Nat.cast_nonneg _
  have h3 : (0 : ℚ) ≤ (if containsSub w (cl.take 200) then (1 : ℚ) else 0) := by positivity
  have : (countOccur w cl : ℚ) = 0 := by linarith
  exact_mod_cast this

theorem strictRaw_zero_no_sub (content : List Char) (qw : List (List Char))
    (h : strictRaw content qw = 0) :
    ∀ w ∈ qw, w ≠ [] → containsSub w (jsToLower content) = false := by
  intro w hw hne
  have hmem : wordRaw (jsToLower content) w ∈ qw.map (wordRaw (jsToLower content)) :=
    List.mem_map.2 ⟨w, hw, rfl⟩
  have hzero : wordRaw (jsToLower content) w = 0 := by
    refine sum_eq_zero_each _ ?_ h _ hmem
    intro x hx
    obtain ⟨w', _, rfl⟩ := List.mem_map.1 hx
    exact wordRaw_nonneg _ w'
  have hocc := wordRaw_zero_no_occur _ w hzero
  by_contra hcontra
  have hsub : containsSub w (jsToLower content) = true := by
    cases hval : containsSub w (jsToLower content)
    · exact absurd hval hcontra
    · rfl
  have := countOccur_pos_of_containsSub w hne _ hsub
  omega

theorem strictScore_eq (content : List Char) (qw : List (List Char))
    (hq : qw ≠ []) (hc : content ≠ []) :
    0 < Real.log ((content.length : ℝ) + 1) * (qw.length : ℝ) ∧
    strictScore content qw =
      some (min ((strictRaw content qw : ℝ) /
        (Real.log ((content.length : ℝ) + 1) * (qw.length : ℝ))) 1) := by
  have hlen : 1 ≤ content.length := List.length_pos.2 hc
  have hlog : 0 < Real.log ((content.length : ℝ) + 1) := by
    apply Real.log_pos
    have : (1 : ℝ) ≤ (content.length : ℝ) := by exact_mod_cast hlen
    linarith
  have hn : 0 < (qw.length : ℝ) := by
    have : 1 ≤ qw.length := List.length_pos.2 hq
    exact_mod_cast Nat.lt_of_lt_of_le Nat.zero_lt_one this
  have hd : 0 < Real.log ((content.length : ℝ) + 1) * (qw.length : ℝ) :=
    mul_pos hlog hn
  refine ⟨hd, ?_⟩
  rw [strictScore, jsDiv, if_neg (ne_of_gt hd)]
  rfl

theorem strictScore_in_unit (content : List Char) (qw : List (List Char))
    (hq : qw ≠ []) (hc : content ≠ []) :
    ∃ x, strictScore content qw = some x ∧ 0 ≤ x ∧ x ≤ 1 := by
  obtain ⟨hd, heq⟩ := strictScore_eq content qw hq hc
  refine ⟨_, heq, ?_, min_le_right _ _⟩
  have hraw : (0 : ℝ) ≤ (strictRaw content qw : ℝ) := by
    exact_mod_cast strictRaw_nonneg content qw
  exact le_min (div_nonneg hraw (le_of_lt hd)) (by norm_num)

theorem strictScore_pos_iff (content : List Char) (qw : List (List Char))
    (hq : qw ≠ []) (hc : content ≠ []) :
    posScore (strictScore content qw) ↔ 0 < strictRaw content qw := by
  obtain ⟨hd, heq⟩ := strictScore_eq content qw hq hc
  rw [heq, posScore_some, lt_min_iff]
  constructor
  · intro ⟨hdiv, _⟩
    have : (0 : ℝ) < (strictRaw content qw : ℝ) := by
      by_contra hnot
      push_neg at hnot
      have : (strictRaw content qw : ℝ) / (Real.log ((content.length : ℝ) + 1) * (qw.length : ℝ)) ≤ 0 :=
        div_nonpos_of_nonpos_of_nonneg hnot (le_of_lt hd)
      linarith
    exact_mod_cast this
  · intro hraw
    have hrawR : (0 : ℝ) < (strictRaw content qw : ℝ) := by exact_mod_cast hraw
    exact ⟨div_pos hrawR hd, by norm_num⟩

theorem lenientWordRaw_nonneg (cl w : List Char) : 0 ≤ lenientWordRaw cl w := by
  rw [lenientWordRaw]
  have h1 : (0 : ℚ) ≤ (if containsSub w cl then (1 : ℚ) else 0) := by positivity
  have h2 : (0 : ℚ) ≤ (if (variations w).any
      (fun v => decide (2 < v.length) && containsSub v cl) then (3 : ℚ) / 10 else 0) := by
    positivity
  linarith

theorem lenientWordRaw_le_of_no_sub (cl w : List Char) (h : containsSub w cl = false) :
    lenientWordRaw cl w ≤ 3 / 10 := by
  rw [lenientWordRaw, h]
  have h2 : (if (variations w).any
      (fun v => decide (2 < v.length) && containsSub v cl) then (3 : ℚ) / 10 else 0) ≤ 3 / 10 := by
    split <;> norm_num
  simpa using h2

theorem lenientRaw_nonneg (content : List Char) (qw : List (List Char)) :
    0 ≤ lenientRaw content qw := by
  rw [lenientRaw]
  refine List.sum_nonneg ?_
  intro x hx
  obtain ⟨w, _, rfl⟩ := List.mem_map.1 hx
  exact lenientWordRaw_nonneg _ w

theorem lenientRaw_le_of_no_sub (content : List Char) (qw : List (List Char))
    (h : ∀ w ∈ qw, containsSub w (jsToLower content) = false) :
    lenientRaw content qw ≤ (3 / 10) * qw.length := by
  rw [lenientRaw]
  have hb : ∀ x ∈ qw.map (lenientWordRaw (jsToLower content)), x ≤ (3 : ℚ) / 10 := by
    intro x hx
    obtain ⟨w, hw, rfl⟩ := List.mem_map.1 hx
    exact lenientWordRaw_le_of_no_sub _ w (h w hw)
  have := List.sum_le_card_nsmul _ _ hb
  rw [List.length_map] at this
  calc (qw.map (lenientWordRaw (jsToLower content))).sum
      ≤ qw.length • ((3 : ℚ) / 10) := this
    _ = (3 / 10) * qw.length := by
        rw [nsmul_eq_mul]
        ring

theorem lenientScore_eq (content : List Char) (qw : List (List Char)) (hq : qw ≠ []) :
    lenientScore content qw =
      some (max (lenientRaw content qw / (qw.length : ℚ))
        (if hasLowerAscii (jsToLower content) then 1 / 10 else 0)) := by
  have hn : ((qw.length : ℚ)) ≠ 0 := by
    have : 1 ≤ qw.length := List.length_pos.2 hq
    positivity
  rw [lenientScore, jsDivQ, if_neg hn]
  rfl

theorem lenientScore_in_unit_of_no_sub (content : List Char) (qw : List (List Char))
    (hq : qw ≠ [])
    (h : ∀ w ∈ qw, containsSub w (jsToLower content) = false) :
    ∃ q, lenientScore content qw = some q ∧ 0 ≤ q ∧ q ≤ 1 := by
  rw [lenientScore_eq content qw hq]
  have hn : (0 : ℚ) < (qw.length : ℚ) := by
    have : 1 ≤ qw.length := List.length_pos.2 hq
    exact_mod_cast this
  refine ⟨_, rfl, ?_, ?_⟩
  · refine le_max_iff.2 (Or.inl ?_)
    exact div_nonneg (lenientRaw_nonneg content qw) (le_of_lt hn)
  · refine max_le ?_ ?_
    · rw [div_le_one hn]
      have := lenientRaw_le_of_no_sub content qw h
      nlinarith
    · split <;> norm_num

theorem lenientScore_ge_floor (content : List Char) (qw : List (List Char))
    (hq : qw ≠ []) (hl : hasLowerAscii (jsToLower content) = true) :
    ∃ q, lenientScore content qw = some q ∧ 1 / 10 ≤ q := by
  rw [lenientScore_eq content qw hq, hl]
  exact ⟨_, rfl, le_max_iff.2 (Or.inr (by norm_num))⟩

theorem toLower_fixes_lower (c : Char) (h1 : 'a' ≤ c) : c.toLower = c := by
  have ha : (97 : ℕ) ≤ c.toNat := by
    have := Char.le_def.1 h1
    have := UInt32.le_def.1 this
    simpa [BitVec.le_def, Char.toNat, UInt32.toNat] using this
  rw [Char.toLower]
  rw [if_neg]
  omega

theorem hasLowerAscii_jsToLower (l : List Char) (h : hasLowerAscii l = true) :
    hasLowerAscii (jsToLower l) = true := by
  rw [hasLowerAscii, List.any_eq_true] at h ⊢
  obtain ⟨c, hc, hrange⟩ := h
  rw [Bool.and_eq_true] at hrange
  have h1 : 'a' ≤ c := of_decide_eq_true hrange.1
  refine ⟨c, ?_, ?_⟩
  · rw [jsToLower]
    exact List.mem_map.2 ⟨c, hc, toLower_fixes_lower c h1⟩
  · rw [Bool.and_eq_true]
    exact ⟨hrange.1, hrange.2⟩

theorem strictPass_length (chunks : List HTMLChunk) (qw : List (List Char)) :
    (strictPass chunks qw).length = chunks.length := by
  rw [strictPass, List.length_map]

theorem lenientPass_length (chunks : List HTMLChunk) (qw : List (List Char)) :
    (lenientPass chunks qw).length = chunks.length := by
  rw [lenientPass, List.length_map]

theorem mem_strictPass (chunks : List HTMLChunk) (qw : List (List Char)) :
    ∀ c ∈ strictPass chunks qw,
      c.relevanceScore = strictScore c.content qw ∧ ∃ c₀ ∈ chunks, c.content = c₀.content := by
  intro c hc
  obtain ⟨c₀, hc₀, rfl⟩ := List.mem_map.1 hc
  exact ⟨rfl, c₀, hc₀, rfl⟩

theorem mem_lenientPass (chunks : List HTMLChunk) (qw : List (List Char)) :
    ∀ c ∈ lenientPass chunks qw,
      c.relevanceScore = (lenientScore c.content qw).map (fun q => (q : ℝ)) ∧
        ∃ c₀ ∈ chunks, c.content = c₀.content := by
  intro c hc
  obtain ⟨c₀, hc₀, rfl⟩ := List.mem_map.1 hc
  exact ⟨rfl, c₀, hc₀, rfl⟩

open Classical in
theorem selectTop_length (scored : List HTMLChunk) (k : ℕ) :
    (selectTop scored k).length =
      min k ((scored.filter fun c => decide (posScore c.relevanceScore)).length) := by
  rw [selectTop, List.length_take, List.length_mergeSort]

open Classical in
theorem mem_selectTop (scored : List HTMLChunk) (k : ℕ) :
    ∀ c ∈ selectTop scored k, c ∈ scored ∧ posScore c.relevanceScore := by
  intro c hc
  have h1 : c ∈ (scored.filter fun c => decide (posScore c.relevanceScore)).mergeSort
      scoreDesc := (List.take_sublist _ _).subset hc
  rw [List.mem_mergeSort] at h1
  have h2 := List.mem_filter.1 h1
  exact ⟨h2.1, of_decide_eq_true h2.2⟩

theorem mergeSort_eq_nil_iff (l : List HTMLChunk) (le : HTMLChunk → HTMLChunk → Bool) :
    l.mergeSort le = [] ↔ l = [] := by
  constructor
  · intro h
    have := congrArg List.length h
    rw [List.length_mergeSort] at this
    exact List.length_eq_zero.1 (by simpa using this)
  · intro h
    rw [h, List.mergeSort_nil]

open Classical in
theorem selectTop_eq_nil_iff (scored : List HTMLChunk) (k : ℕ) :
    selectTop scored k = [] ↔
      k = 0 ∨ (scored.filter fun c => decide (posScore c.relevanceScore)) = [] := by
  rw [selectTop, List.take_eq_nil_iff, mergeSort_eq_nil_iff]

theorem fallbackSelect_length (scored : List HTMLChunk) (k : ℕ) :
    (fallbackSelect scored k).length = min (min k 3) scored.length := by
  rw [fallbackSelect, List.length_map, List.length_take, List.length_mergeSort]

theorem mem_fallbackSelect (scored : List HTMLChunk) (k : ℕ) :
    ∀ c ∈ fallbackSelect scored k, c.relevanceScore = some ((1 : ℝ) / 10) := by
  intro c hc
  obtain ⟨c₀, _, rfl⟩ := List.mem_map.1 hc
  rfl

theorem performSemanticSearch_ok (chunks : List HTMLChunk) (query : List Char) (m : ℕ)
    (h : ∀ w ∈ queryWordsOf query, plainWord w = true) :
    performSemanticSearch chunks query m =
      .ok (rankSelection chunks (queryWordsOf query) m) := by
  have hany : (queryWordsOf query).any regexCompileFails = false := by
    rw [List.any_eq_false]
    intro w hw
    rw [regexCompileFails_eq_false_of_plain w (h w hw)]
    simp
  rw [performSemanticSearch, if_neg]
  rw [hany]
  simp

/-- `strictScore` at a content with zero raw score is exactly `0`. -/
theorem strictScore_zero_raw (content : List Char) (qw : List (List Char))
    (hq : qw ≠ []) (hc : content ≠ []) (h : strictRaw content qw = 0) :
    strictScore content qw = some 0 := by
  obtain ⟨hd, heq⟩ := strictScore_eq content qw hq hc
  rw [heq, h]
  norm_num

open Classical in
theorem selectTop_eq_nil_of_nonpos (scored : List HTMLChunk) (k : ℕ)
    (h : ∀ c ∈ scored, ¬ posScore c.relevanceScore) : selectTop scored k = [] := by
  rw [selectTop_eq_nil_iff]
  right
  rw [List.filter_eq_nil_iff]
  intro c hc hdec
  exact h c hc (of_decide_eq_true hdec)


/-! ## Claim theorems -/

/-- C1, code bug: the claim asserts `floor(maxTokensPerChunk * 0.75) ≥ 1` for
every `maxTokensPerChunk > 0`, so that the chunking loop terminates.  At
`maxTokensPerChunk = 1` the source computes `wordsPerChunk = floor(0.75) = 0`
and the loop `for (i = 0; i < words.length; i += 0)` never terminates on any
non-empty word list; the embedding returns `none` for that divergence.  The
spec itself prescribes a defensive floor of 1 that the code does not
implement. -/
theorem tokenizeAndChunk_diverges_at_one :
    tokenizeAndChunk ['a'] 1 = none ∧ 1 * 3 / 4 = 0 := ⟨rfl, rfl⟩

/-- C7, counterexample: the Markup Reducer output can contain an HTML entity
(`&amp;nbsp;` decodes to the entity `&nbsp;` because `&amp;` is replaced after
`&nbsp;`), a markup tag (`&lt;b&gt;` decodes to `<b>` after tag stripping has
already run), and a control character (`\x01` is not JS whitespace and no step
removes it). -/
theorem parseAndCleanHTML_emits_entity_tag_control :
    parseAndCleanHTML ("&amp;nbsp;".data) = "&nbsp;".data ∧
    parseAndCleanHTML ("&lt;b&gt;".data) = "<b>".data ∧
    parseAndCleanHTML ['\x01'] = ['\x01'] ∧
    (parseAndCleanHTML ['\x01']).any (fun c => decide (c.toNat < 32)) = true :=
  ⟨rfl, rfl, rfl, rfl⟩

/-- C7 (amended): the Markup Reducer output is whitespace-normalized — every
JS whitespace character in it is a plain space, and it neither starts nor ends
with whitespace.  (Markup tags, HTML entities and non-whitespace control
characters can survive, as the counterexample shows: late entity decoding can
reintroduce `<`, `>` and `&`, and no step removes control characters.) -/
theorem parseAndCleanHTML_whitespace_normalized (s : List Char) :
    ((parseAndCleanHTML s).all fun c => !(isJsSpace c) || c == ' ') = true ∧
    ((parseAndCleanHTML s).head?.elim true fun c => !(isJsSpace c)) = true ∧
    ((parseAndCleanHTML s).getLast?.elim true fun c => !(isJsSpace c)) = true := by
  refine ⟨?_, ?_, ?_⟩
  · rw [List.all_eq_true]
    intro c hc
    by_cases hws : isJsSpace c = true
    · have := parseAndCleanHTML_ws_space s c hc hws
      subst this
      decide
    · simp [hws]
  · cases hh : (parseAndCleanHTML s).head? with
    | none => rfl
    | some c => simpa using head?_parseAndCleanHTML s c hh
  · cases hh : (parseAndCleanHTML s).getLast? with
    | none => rfl
    | some c => simpa using getLast?_parseAndCleanHTML s c hh

/-- C8, counterexample: the Markup Reducer is not idempotent.  On
`&amp;amp;` the first pass yields `&amp;` (the global `&amp; → &` replacement
does not rescan its own output), and a second pass decodes that to `&`. -/
theorem parseAndCleanHTML_not_idempotent :
    parseAndCleanHTML (parseAndCleanHTML ("&amp;amp;".data)) ≠
      parseAndCleanHTML ("&amp;amp;".data) := by decide

set_option maxHeartbeats 4000000 in
/-- C8 (amended): the Markup Reducer is idempotent on every input whose
reduce-output contains no `<` and no `&` — exactly the outputs on which the
late entity decoding cannot reintroduce work for an earlier stage.  (The
counterexample shows idempotence fails without this restriction.) -/
theorem parseAndCleanHTML_idempotent_on_clean_output (s : List Char)
    (h1 : '<' ∉ parseAndCleanHTML s) (h2 : '&' ∉ parseAndCleanHTML s) :
    parseAndCleanHTML (parseAndCleanHTML s) = parseAndCleanHTML s := by
  have hws := parseAndCleanHTML_ws_space s
  have hnp := noWsPair_parseAndCleanHTML s
  have hh := head?_parseAndCleanHTML s
  have hl := getLast?_parseAndCleanHTML s
  generalize hT : parseAndCleanHTML s = t at h1 h2 hws hnp hh hl ⊢
  exact parseAndCleanHTML_fixed t h1 h2 hws hnp hh hl

/-- Witness for the amended C8 at a concrete input. -/
theorem parseAndCleanHTML_idempotent_on_clean_output_witness :
    '<' ∉ parseAndCleanHTML ("<p>hello world</p>".data) ∧
    '&' ∉ parseAndCleanHTML ("<p>hello world</p>".data) ∧
    parseAndCleanHTML (parseAndCleanHTML ("<p>hello world</p>".data)) =
      parseAndCleanHTML ("<p>hello world</p>".data) :=
  ⟨by decide, by decide,
    parseAndCleanHTML_idempotent_on_clean_output ("<p>hello world</p>".data)
      (by decide) (by decide)⟩

/-- C6, counterexample: with an empty prepared query word list, neither score
is the value `0`.  Both normalizations divide `0` by `0`, and in JS `0 / 0` is
`NaN` (modelled `none`), not `0`. -/
theorem scores_zero_on_empty_queryWords_refuted :
    ¬(strictScore ['a'] [] = some 0 ∧ lenientScore ['a'] [] = some 0) := by
  intro h
  have h1 := h.1
  simp [strictScore, jsDiv] at h1

/-- C6 (amended): with an empty prepared query word list, the strict and
lenient scores of every chunk content are `NaN` (`0 / 0`, modelled `none`)
rather than `0`; in particular neither score is positive, so no chunk
qualifies in the strict or lenient pass and the fallback tier decides the
output. -/
theorem scores_nan_on_empty_queryWords (content : List Char) :
    strictScore content [] = none ∧ lenientScore content [] = none ∧
    ¬ posScore (strictScore content []) := by
  have h1 : strictScore content [] = none := by simp [strictScore, jsDiv]
  have h2 : lenientScore content [] = none := by simp [lenientScore, jsDivQ]
  refine ⟨h1, h2, ?_⟩
  rw [h1]
  exact fun h => h

/-- C2, code bug: the Ranker is not total.  The query `foo(` produces the
prepared word `foo(`, and `new RegExp('\\bfoo(\\b', 'g')` (source line 299)
raises `SyntaxError` for the unterminated group, so `performSemanticSearch`
throws on any non-empty chunk list, contradicting the never-fails contract. -/
theorem performSemanticSearch_throws_on_regex_metachar :
    performSemanticSearch [⟨"hello".data, 2, 1, "heading".data, some 0⟩]
      ("foo(".data) 10 = .error () := by rfl

/-- C9: whenever the thin-content heuristic triggers, the Fetcher returns the
secondary content exactly when the secondary retrieval succeeded with strictly
more content than the primary result; a shorter or equal secondary body and a
failed secondary retrieval both leave the primary content in place, and no
error is raised (the function is total). -/
theorem fetchContentResult_thin_policy (primary : List Char)
    (secondary : Except Unit (List Char)) (h : thinContent primary = true) :
    (∀ j, secondary = .ok j → primary.length < j.length →
      fetchContentResult primary secondary = j) ∧
    (∀ j, secondary = .ok j → ¬ primary.length < j.length →
      fetchContentResult primary secondary = primary) ∧
    (∀ e, secondary = .error e → fetchContentResult primary secondary = primary) := by
  refine ⟨?_, ?_, ?_⟩
  · intro j hj hlen
    subst hj
    rw [fetchContentResult, if_pos h]
    simp [hlen]
  · intro j hj hlen
    subst hj
    rw [fetchContentResult, if_pos h]
    simp [hlen]
  · intro e he
    subst he
    rw [fetchContentResult, if_pos h]

/-- Witness for C9 at a concrete input: a 2-character primary body triggers
the heuristic and a longer secondary body replaces it. -/
theorem fetchContentResult_thin_policy_witness :
    thinContent ("hi".data) = true ∧
    fetchContentResult ("hi".data) (Except.ok ("hello".data)) = "hello".data :=
  ⟨by decide,
    (fetchContentResult_thin_policy ("hi".data) (Except.ok ("hello".data)) (by decide)).1
      ("hello".data) rfl (by decide)⟩

/-- C4: for non-empty text and `maxTokensPerChunk ≥ 2` the Chunker succeeds,
its `chunkIndex` values are exactly `1, 2, ..., n`, and joining the chunk
contents with single spaces reproduces the space-joined whitespace-split word
sequence of the input. -/
theorem tokenizeAndChunk_indices_and_content (text : List Char) (m : ℕ) (hm : 2 ≤ m) :
    ∃ cs, tokenizeAndChunk text m = some cs ∧
      cs.map (fun c => c.chunkIndex) = List.range' 1 cs.length ∧
      joinSpace (cs.map (fun c => c.content)) = joinSpace (wordsOf text) := by
  have hw : 1 ≤ m * 3 / 4 := Nat.le_div_iff_mul_le (by norm_num) |>.2 (by omega)
  have hcond : ¬(m * 3 / 4 = 0 ∧ wordsOf text ≠ []) := by
    intro hpair
    omega
  rw [tokenizeAndChunk, if_neg hcond]
  have hgood : ∀ g ∈ chunksOf (m * 3 / 4) (wordsOf text),
      g ≠ [] ∧ ∀ x ∈ g, x ≠ [] ∧ ∀ c ∈ x, isJsSpace c = false := by
    intro g hgmem
    refine ⟨chunksOf_ne_nil _ _ g hgmem, ?_⟩
    intro x hx
    have hxw : x ∈ wordsOf text := by
      rw [← chunksOf_flatten (m * 3 / 4) (wordsOf text)]
      exact List.mem_flatten.2 ⟨g, hgmem, hx⟩
    exact wordsOf_words text x hxw
  have hfold := foldl_pushChunk m (chunksOf (m * 3 / 4) (wordsOf text)) hgood []
  have h1 := hfold.1
  have h2 := hfold.2
  simp only [List.map_nil, List.length_nil, List.nil_append, Nat.zero_add] at h1 h2
  have hlen : ((chunksOf (m * 3 / 4) (wordsOf text)).foldl (pushChunk m) []).length =
      (chunksOf (m * 3 / 4) (wordsOf text)).length := by
    have := congrArg List.length h2
    simpa using this
  refine ⟨_, rfl, ?_, ?_⟩
  · rw [h1, hlen]
  · rw [h2]
    rw [joinSpace_map_joinSpace _ (fun g hg => (hgood g hg).1)]
    rw [chunksOf_flatten]

/-- Witness for C4 at a concrete input: three words, `maxTokensPerChunk = 2`. -/
theorem tokenizeAndChunk_indices_and_content_witness :
    2 ≤ 2 ∧ ∃ cs, tokenizeAndChunk ("a b c".data) 2 = some cs ∧
      cs.map (fun c => c.chunkIndex) = List.range' 1 cs.length ∧
      joinSpace (cs.map (fun c => c.content)) = joinSpace (wordsOf ("a b c".data)) :=
  ⟨le_rfl, tokenizeAndChunk_indices_and_content ("a b c".data) 2 le_rfl⟩

open Classical in
/-- C3 (amended): provided the prepared query word list is non-empty and all
chunk contents are non-empty, every relevance score is a real number in
`[0, 1]` after the strict pass, after the lenient pass whenever that pass is
reachable (all strict raw scores zero), and in the returned result of any
tier.  (With an empty query word list the passes instead set every score to
`NaN`, as the counterexample shows; the fallback tier still returns `0.1`.) -/
theorem rank_scores_in_unit (chunks : List HTMLChunk) (query : List Char) (m : ℕ)
    (hq : queryWordsOf query ≠ [])
    (hc : ∀ c ∈ chunks, c.content ≠ []) :
    (∀ c ∈ strictPass chunks (queryWordsOf query), scoreInUnit c.relevanceScore) ∧
    ((∀ c ∈ chunks, strictRaw c.content (queryWordsOf query) = 0) →
      ∀ c ∈ lenientPass chunks (queryWordsOf query), scoreInUnit c.relevanceScore) ∧
    (∀ l, performSemanticSearch chunks query m = .ok l →
      ∀ c ∈ l, scoreInUnit c.relevanceScore) := by
  have hstrict : ∀ c ∈ strictPass chunks (queryWordsOf query), scoreInUnit c.relevanceScore := by
    intro c hcm
    obtain ⟨hsc, c₀, hc₀, hcont⟩ := mem_strictPass chunks (queryWordsOf query) c hcm
    rw [hsc]
    have hne : c.content ≠ [] := by rw [hcont]; exact hc c₀ hc₀
    exact strictScore_in_unit c.content (queryWordsOf query) hq hne
  have hlenient : (∀ c ∈ chunks, strictRaw c.content (queryWordsOf query) = 0) →
      ∀ c ∈ lenientPass chunks (queryWordsOf query), scoreInUnit c.relevanceScore := by
    intro hall c hcm
    obtain ⟨hsc, c₀, hc₀, hcont⟩ := mem_lenientPass chunks (queryWordsOf query) c hcm
    have hraw : strictRaw c.content (queryWordsOf query) = 0 := by
      rw [hcont]; exact hall c₀ hc₀
    have hnosub : ∀ w ∈ queryWordsOf query, containsSub w (jsToLower c.content) = false := by
      intro w hw
      exact strictRaw_zero_no_sub c.content (queryWordsOf query) hraw w hw
        (queryWordsOf_ne_nil query w hw)
    obtain ⟨q, hqeq, hq0, hq1⟩ :=
      lenientScore_in_unit_of_no_sub c.content (queryWordsOf query) hq hnosub
    rw [hsc, hqeq]
    exact ⟨(q : ℝ), rfl, by exact_mod_cast hq0, by exact_mod_cast hq1⟩
  refine ⟨hstrict, hlenient, ?_⟩
  intro l hl c hcm
  rw [performSemanticSearch] at hl
  by_cases herr : 0 < chunks.length ∧ (queryWordsOf query).any regexCompileFails
  · rw [if_pos herr] at hl
    exact absurd hl (by simp)
  · rw [if_neg herr] at hl
    have hl' : rankSelection chunks (queryWordsOf query) m = l := by
      injection hl
    subst hl'
    rw [rankSelection] at hcm
    by_cases h3 : (tier12 chunks (queryWordsOf query) m).length = 0 ∧ 0 < chunks.length
    · rw [if_pos h3] at hcm
      have := mem_fallbackSelect _ m c hcm
      rw [this]
      exact ⟨1 / 10, rfl, by norm_num, by norm_num⟩
    · rw [if_neg h3] at hcm
      rw [tier12] at hcm
      by_cases h4 : (selectTop (strictPass chunks (queryWordsOf query)) m).length = 0 ∧
          0 < chunks.length
      · rw [if_pos h4] at hcm
        have hsel : selectTop (strictPass chunks (queryWordsOf query)) m = [] :=
          List.length_eq_zero.1 h4.1
        rcases (selectTop_eq_nil_iff _ m).1 hsel with hm0 | hfilter
        · have hnil : selectTop (lenientPass chunks (queryWordsOf query)) m = [] := by
            rw [selectTop_eq_nil_iff]
            exact Or.inl hm0
          rw [hnil] at hcm
          exact absurd hcm (by simp)
        · have hall : ∀ c' ∈ chunks, strictRaw c'.content (queryWordsOf query) = 0 := by
            intro c' hc'
            have hmem : {c' with relevanceScore := strictScore c'.content (queryWordsOf query)} ∈
                strictPass chunks (queryWordsOf query) := List.mem_map.2 ⟨c', hc', rfl⟩
            have hnp := (List.filter_eq_nil_iff.1 hfilter) _ hmem
            have hnpos : ¬ posScore (strictScore c'.content (queryWordsOf query)) := by
              intro hp
              exact hnp (decide_eq_true hp)
            have hiff := strictScore_pos_iff c'.content (queryWordsOf query) hq (hc c' hc')
            have hge := strictRaw_nonneg c'.content (queryWordsOf query)
            have hle : ¬ 0 < strictRaw c'.content (queryWordsOf query) :=
              fun hgt => hnpos (hiff.2 hgt)
            linarith
          exact hlenient hall c ((mem_selectTop _ m c hcm).1)
      · rw [if_neg h4] at hcm
        exact hstrict c ((mem_selectTop _ m c hcm).1)

/-- Witness for the amended C3 at a concrete input. -/
theorem rank_scores_in_unit_witness :
    queryWordsOf ("them".data) ≠ [] ∧
    (∀ c ∈ [(⟨"abc".data, 1, 1, "heading".data, some 0⟩ : HTMLChunk)], c.content ≠ []) ∧
    ((∀ c ∈ strictPass [(⟨"abc".data, 1, 1, "heading".data, some 0⟩ : HTMLChunk)]
        (queryWordsOf ("them".data)), scoreInUnit c.relevanceScore) ∧
     ((∀ c ∈ [(⟨"abc".data, 1, 1, "heading".data, some 0⟩ : HTMLChunk)],
        strictRaw c.content (queryWordsOf ("them".data)) = 0) →
      ∀ c ∈ lenientPass [(⟨"abc".data, 1, 1, "heading".data, some 0⟩ : HTMLChunk)]
        (queryWordsOf ("them".data)), scoreInUnit c.relevanceScore) ∧
     (∀ l, performSemanticSearch [(⟨"abc".data, 1, 1, "heading".data, some 0⟩ : HTMLChunk)]
        ("them".data) 1 = .ok l → ∀ c ∈ l, scoreInUnit c.relevanceScore)) :=
  ⟨by decide, by decide,
    rank_scores_in_unit [(⟨"abc".data, 1, 1, "heading".data, some 0⟩ : HTMLChunk)]
      ("them".data) 1 (by decide) (by decide)⟩

/-- C3, counterexample: after the strict pass with query `a` (whose prepared
word list is empty), the chunk score is `NaN` (`none`) — not a real number in
`[0, 1]`. -/
theorem rank_nan_after_strict_pass :
    ((strictPass [(⟨"abc".data, 1, 1, "heading".data, some 0⟩ : HTMLChunk)]
      (queryWordsOf ['a'])).map (fun c => c.relevanceScore)) = [none] ∧
    ¬ scoreInUnit none := by
  constructor
  · have hq : queryWordsOf ['a'] = [] := by decide
    rw [hq, strictPass]
    simp [strictScore, jsDiv]
  · rintro ⟨x, hx, -⟩
    exact Option.noConfusion hx

open Classical in
/-- C5 (amended): under a compilable (metacharacter-free) query, the Ranker
returns a list whose length is `min(maxResults, number of positively scored
chunks)` in the strict tier and in the lenient tier, and
`min(maxResults, 3, number of chunks)` in the longest-chunk fallback tier.
(The claim stated `min(maxResults, 3)` for the fallback; with fewer than 3
chunks the output is shorter, as the counterexample shows.) -/
theorem rank_output_lengths (chunks : List HTMLChunk) (query : List Char) (m : ℕ)
    (hm : 1 ≤ m) (hplain : ∀ w ∈ queryWordsOf query, plainWord w = true) :
    ∃ l, performSemanticSearch chunks query m = .ok l ∧
      ((0 < ((strictPass chunks (queryWordsOf query)).filter
          fun c => decide (posScore c.relevanceScore)).length →
        l.length = min m ((strictPass chunks (queryWordsOf query)).filter
          fun c => decide (posScore c.relevanceScore)).length) ∧
      (((strictPass chunks (queryWordsOf query)).filter
          fun c => decide (posScore c.relevanceScore)).length = 0 →
        0 < ((lenientPass chunks (queryWordsOf query)).filter
          fun c => decide (posScore c.relevanceScore)).length →
        l.length = min m ((lenientPass chunks (queryWordsOf query)).filter
          fun c => decide (posScore c.relevanceScore)).length) ∧
      (((strictPass chunks (queryWordsOf query)).filter
          fun c => decide (posScore c.relevanceScore)).length = 0 →
        ((lenientPass chunks (queryWordsOf query)).filter
          fun c => decide (posScore c.relevanceScore)).length = 0 →
        l.length = min (min m 3) chunks.length)) := by
  refine ⟨_, performSemanticSearch_ok chunks query m hplain, ?_, ?_, ?_⟩
  · intro hn1
    have hsel : (selectTop (strictPass chunks (queryWordsOf query)) m).length ≠ 0 := by
      rw [selectTop_length]
      omega
    have ht : tier12 chunks (queryWordsOf query) m =
        selectTop (strictPass chunks (queryWordsOf query)) m := by
      rw [tier12, if_neg]
      intro hcontra
      exact hsel hcontra.1
    have hr : rankSelection chunks (queryWordsOf query) m =
        tier12 chunks (queryWordsOf query) m := by
      rw [rankSelection, if_neg]
      intro hcontra
      rw [ht] at hcontra
      exact hsel hcontra.1
    rw [hr, ht, selectTop_length]
  · intro hn1 hn2
    have hch : 0 < chunks.length := by
      have h1 : ((lenientPass chunks (queryWordsOf query)).filter
          fun c => decide (posScore c.relevanceScore)).length ≤
          (lenientPass chunks (queryWordsOf query)).length := List.length_filter_le _ _
      rw [lenientPass_length] at h1
      omega
    have hsel1 : (selectTop (strictPass chunks (queryWordsOf query)) m).length = 0 := by
      rw [selectTop_length, hn1]
      simp
    have ht : tier12 chunks (queryWordsOf query) m =
        selectTop (lenientPass chunks (queryWordsOf query)) m := by
      rw [tier12, if_pos ⟨hsel1, hch⟩]
    have hsel2 : (selectTop (lenientPass chunks (queryWordsOf query)) m).length ≠ 0 := by
      rw [selectTop_length]
      omega
    have hr : rankSelection chunks (queryWordsOf query) m =
        tier12 chunks (queryWordsOf query) m := by
      rw [rankSelection, if_neg]
      intro hcontra
      rw [ht] at hcontra
      exact hsel2 hcontra.1
    rw [hr, ht, selectTop_length]
  · intro hn1 hn2
    have hsel1 : (selectTop (strictPass chunks (queryWordsOf query)) m).length = 0 := by
      rw [selectTop_length, hn1]
      simp
    have hsel2 : (selectTop (lenientPass chunks (queryWordsOf query)) m).length = 0 := by
      rw [selectTop_length, hn2]
      simp
    by_cases hch : 0 < chunks.length
    · have ht : tier12 chunks (queryWordsOf query) m =
          selectTop (lenientPass chunks (queryWordsOf query)) m := by
        rw [tier12, if_pos ⟨hsel1, hch⟩]
      have hr : rankSelection chunks (queryWordsOf query) m =
          fallbackSelect (lenientPass chunks (queryWordsOf query)) m := by
        rw [rankSelection, if_pos]
        rw [ht]
        exact ⟨hsel2, hch⟩
      rw [hr, fallbackSelect_length, lenientPass_length]
    · have hch0 : chunks.length = 0 := by omega
      have ht : tier12 chunks (queryWordsOf query) m =
          selectTop (strictPass chunks (queryWordsOf query)) m := by
        rw [tier12, if_neg]
        intro hcontra
        exact hch hcontra.2
      have hr : rankSelection chunks (queryWordsOf query) m =
          tier12 chunks (queryWordsOf query) m := by
        rw [rankSelection, if_neg]
        intro hcontra
        exact hch hcontra.2
      rw [hr, ht, selectTop_length, hn1, hch0]
      simp

open Classical in
/-- Witness for the amended C5 at a concrete input with a strict-tier hit. -/
theorem rank_output_lengths_witness :
    1 ≤ 1 ∧ (∀ w ∈ queryWordsOf ("fox".data), plainWord w = true) ∧
    ∃ l, performSemanticSearch [(⟨"the fox".data, 2, 1, "heading".data, some 0⟩ : HTMLChunk)]
        ("fox".data) 1 = .ok l ∧
      ((0 < ((strictPass [(⟨"the fox".data, 2, 1, "heading".data, some 0⟩ : HTMLChunk)]
          (queryWordsOf ("fox".data))).filter
          fun c => decide (posScore c.relevanceScore)).length →
        l.length = min 1 ((strictPass [(⟨"the fox".data, 2, 1, "heading".data, some 0⟩ : HTMLChunk)]
          (queryWordsOf ("fox".data))).filter
          fun c => decide (posScore c.relevanceScore)).length) ∧
      (((strictPass [(⟨"the fox".data, 2, 1, "heading".data, some 0⟩ : HTMLChunk)]
          (queryWordsOf ("fox".data))).filter
          fun c => decide (posScore c.relevanceScore)).length = 0 →
        0 < ((lenientPass [(⟨"the fox".data, 2, 1, "heading".data, some 0⟩ : HTMLChunk)]
          (queryWordsOf ("fox".data))).filter
          fun c => decide (posScore c.relevanceScore)).length →
        l.length = min 1 ((lenientPass [(⟨"the fox".data, 2, 1, "heading".data, some 0⟩ : HTMLChunk)]
          (queryWordsOf ("fox".data))).filter
          fun c => decide (posScore c.relevanceScore)).length) ∧
      (((strictPass [(⟨"the fox".data, 2, 1, "heading".data, some 0⟩ : HTMLChunk)]
          (queryWordsOf ("fox".data))).filter
          fun c => decide (posScore c.relevanceScore)).length = 0 →
        ((lenientPass [(⟨"the fox".data, 2, 1, "heading".data, some 0⟩ : HTMLChunk)]
          (queryWordsOf ("fox".data))).filter
          fun c => decide (posScore c.relevanceScore)).length = 0 →
        l.length = min (min 1 3)
          [(⟨"the fox".data, 2, 1, "heading".data, some 0⟩ : HTMLChunk)].length)) :=
  ⟨le_rfl, by decide,
    rank_output_lengths [(⟨"the fox".data, 2, 1, "heading".data, some 0⟩ : HTMLChunk)]
      ("fox".data) 1 le_rfl (by decide)⟩

open Classical in
/-- C5, counterexample: in the fallback tier with a single chunk and
`maxResults = 10`, the Ranker returns 1 chunk, not `min(10, 3) = 3`:
`Array.prototype.slice` cannot produce more elements than the array holds. -/
theorem rank_fallback_length_not_min3 :
    (performSemanticSearch [(⟨"12".data, 1, 1, "heading".data, some 0⟩ : HTMLChunk)]
      ("xyz".data) 10).map List.length = Except.ok 1 ∧ (1 : ℕ) ≠ min 10 3 := by
  constructor
  · rw [performSemanticSearch_ok _ _ _ (by decide)]
    have hqw : queryWordsOf ("xyz".data) = ["xyz".data] := by decide
    have hraw : strictRaw ("12".data) ["xyz".data] = 0 := by
      have h1 : countExact ("xyz".data) (jsToLower ("12".data)) = 0 := by decide
      have h2 : countOccur ("xyz".data) (jsToLower ("12".data)) = 0 := by decide
      have h3 : containsSub ("xyz".data) ((jsToLower ("12".data)).take 200) = false := by decide
      simp [strictRaw, wordRaw, h1, h2, h3]
    have hs : strictScore ("12".data) ["xyz".data] = some 0 :=
      strictScore_zero_raw _ _ (by simp) (by simp) hraw
    have hlr : lenientRaw ("12".data) ["xyz".data] = 0 := by
      have h1 : containsSub ("xyz".data) (jsToLower ("12".data)) = false := by decide
      have h2 : ((variations ("xyz".data)).any
          fun v => decide (2 < v.length) && containsSub v (jsToLower ("12".data))) = false := by
        decide
      simp [lenientRaw, lenientWordRaw, h1, h2]
    have hl : lenientScore ("12".data) ["xyz".data] = some 0 := by
      rw [lenientScore_eq _ _ (by simp), hlr]
      have h3 : hasLowerAscii (jsToLower ("12".data)) = false := by decide
      rw [h3]
      norm_num
    have hsp : ∀ c ∈ strictPass [(⟨"12".data, 1, 1, "heading".data, some 0⟩ : HTMLChunk)]
        (queryWordsOf ("xyz".data)), ¬ posScore c.relevanceScore := by
      intro c hcm
      obtain ⟨hsc, c₀, hc₀, hcont⟩ :=
        mem_strictPass [(⟨"12".data, 1, 1, "heading".data, some 0⟩ : HTMLChunk)] _ c hcm
      have hcont' : c.content = "12".data := by
        rw [hcont]
        have : c₀ = (⟨"12".data, 1, 1, "heading".data, some 0⟩ : HTMLChunk) := by
          simpa using hc₀
        rw [this]
      rw [hsc, hcont', hqw, hs, posScore_some]
      norm_num
    have hlp : ∀ c ∈ lenientPass [(⟨"12".data, 1, 1, "heading".data, some 0⟩ : HTMLChunk)]
        (queryWordsOf ("xyz".data)), ¬ posScore c.relevanceScore := by
      intro c hcm
      obtain ⟨hsc, c₀, hc₀, hcont⟩ :=
        mem_lenientPass [(⟨"12".data, 1, 1, "heading".data, some 0⟩ : HTMLChunk)] _ c hcm
      have hcont' : c.content = "12".data := by
        rw [hcont]
        have : c₀ = (⟨"12".data, 1, 1, "heading".data, some 0⟩ : HTMLChunk) := by
          simpa using hc₀
        rw [this]
      rw [hsc, hcont', hqw, hl]
      simp [posScore_some]
    have hsel1 := selectTop_eq_nil_of_nonpos _ 10 hsp
    have hsel2 := selectTop_eq_nil_of_nonpos _ 10 hlp
    have ht : tier12 [(⟨"12".data, 1, 1, "heading".data, some 0⟩ : HTMLChunk)]
        (queryWordsOf ("xyz".data)) 10 =
        selectTop (lenientPass [(⟨"12".data, 1, 1, "heading".data, some 0⟩ : HTMLChunk)]
          (queryWordsOf ("xyz".data))) 10 := by
      rw [tier12, if_pos]
      exact ⟨by rw [hsel1]; rfl, by simp⟩
    have hr : rankSelection [(⟨"12".data, 1, 1, "heading".data, some 0⟩ : HTMLChunk)]
        (queryWordsOf ("xyz".data)) 10 =
        fallbackSelect (lenientPass [(⟨"12".data, 1, 1, "heading".data, some 0⟩ : HTMLChunk)]
          (queryWordsOf ("xyz".data))) 10 := by
      rw [rankSelection, if_pos]
      rw [ht]
      exact ⟨by rw [hsel2]; rfl, by simp⟩
    rw [hr]
    simp [Except.map, fallbackSelect_length, lenientPass_length]
  · norm_num

open Classical in
/-- C10: if the prepared query word list is non-empty and compilable and some
chunk content contains a lower-case ASCII letter, the Ranker never reaches the
longest-chunk fallback tier: the output is the strict-tier or lenient-tier
selection and is non-empty (the letter-bearing chunk earns at least the `0.1`
lenient floor). -/
theorem rank_avoids_fallback_on_letter_chunk (chunks : List HTMLChunk) (query : List Char)
    (m : ℕ) (hq : queryWordsOf query ≠ [])
    (hplain : ∀ w ∈ queryWordsOf query, plainWord w = true)
    (hm : 1 ≤ m)
    (hlow : ∃ c ∈ chunks, hasLowerAscii c.content = true) :
    ∃ l, performSemanticSearch chunks query m = .ok l ∧ l ≠ [] ∧
      (l = selectTop (strictPass chunks (queryWordsOf query)) m ∨
       l = selectTop (lenientPass chunks (queryWordsOf query)) m) := by
  obtain ⟨c0, hc0, hlow0⟩ := hlow
  have hch : 0 < chunks.length := by
    cases chunks with
    | nil => simp at hc0
    | cons a r => simp
  refine ⟨_, performSemanticSearch_ok chunks query m hplain, ?_⟩
  have hlenmem : ∃ c ∈ lenientPass chunks (queryWordsOf query),
      posScore c.relevanceScore := by
    refine ⟨{c0 with relevanceScore :=
      (lenientScore c0.content (queryWordsOf query)).map (fun q => (q : ℝ))},
      List.mem_map.2 ⟨c0, hc0, rfl⟩, ?_⟩
    obtain ⟨q, hqeq, hq10⟩ := lenientScore_ge_floor c0.content (queryWordsOf query) hq
      (hasLowerAscii_jsToLower _ hlow0)
    have hqpos : (0 : ℝ) < (q : ℝ) := by
      have : (0 : ℚ) < q := by linarith
      exact_mod_cast this
    simp only [hqeq, Option.map_some]
    exact hqpos
  have hlenne : selectTop (lenientPass chunks (queryWordsOf query)) m ≠ [] := by
    intro hnil
    rcases (selectTop_eq_nil_iff _ m).1 hnil with hm0 | hfilter
    · omega
    · obtain ⟨c, hcm, hpos⟩ := hlenmem
      exact (List.filter_eq_nil_iff.1 hfilter) c hcm (decide_eq_true hpos)
  by_cases h1 : (selectTop (strictPass chunks (queryWordsOf query)) m).length = 0 ∧
      0 < chunks.length
  · have ht : tier12 chunks (queryWordsOf query) m =
        selectTop (lenientPass chunks (queryWordsOf query)) m := by
      rw [tier12, if_pos h1]
    have hrank : rankSelection chunks (queryWordsOf query) m =
        tier12 chunks (queryWordsOf query) m := by
      rw [rankSelection, if_neg]
      intro hcontra
      rw [ht] at hcontra
      exact hlenne (List.length_eq_zero.1 hcontra.1)
    rw [hrank, ht]
    exact ⟨hlenne, Or.inr rfl⟩
  · have ht : tier12 chunks (queryWordsOf query) m =
        selectTop (strictPass chunks (queryWordsOf query)) m := by
      rw [tier12, if_neg h1]
    have hstrne : selectTop (strictPass chunks (queryWordsOf query)) m ≠ [] := by
      intro hnil
      exact h1 ⟨by rw [hnil]; rfl, hch⟩
    have hrank : rankSelection chunks (queryWordsOf query) m =
        tier12 chunks (queryWordsOf query) m := by
      rw [rankSelection, if_neg]
      intro hcontra
      rw [ht] at hcontra
      exact hstrne (List.length_eq_zero.1 hcontra.1)
    rw [hrank, ht]
    exact ⟨hstrne, Or.inl rfl⟩

open Classical in
/-- Witness for C10 at a concrete input: a letter-bearing chunk that matches
no query word still keeps the Ranker out of the fallback tier. -/
theorem rank_avoids_fallback_on_letter_chunk_witness :
    queryWordsOf ("them".data) ≠ [] ∧
    (∀ w ∈ queryWordsOf ("them".data), plainWord w = true) ∧ 1 ≤ 1 ∧
    (∃ c ∈ [(⟨"zq".data, 1, 1, "heading".data, some 0⟩ : HTMLChunk)],
      hasLowerAscii c.content = true) ∧
    ∃ l, performSemanticSearch [(⟨"zq".data, 1, 1, "heading".data, some 0⟩ : HTMLChunk)]
        ("them".data) 1 = .ok l ∧ l ≠ [] ∧
      (l = selectTop (strictPass [(⟨"zq".data, 1, 1, "heading".data, some 0⟩ : HTMLChunk)]
        (queryWordsOf ("them".data))) 1 ∨
       l = selectTop (lenientPass [(⟨"zq".data, 1, 1, "heading".data, some 0⟩ : HTMLChunk)]
        (queryWordsOf ("them".data))) 1) :=
  ⟨by decide, by decide, le_rfl, by decide,
    rank_avoids_fallback_on_letter_chunk
      [(⟨"zq".data, 1, 1, "heading".data, some 0⟩ : HTMLChunk)] ("them".data) 1
      (by decide) (by decide) le_rfl (by decide)⟩

end WebSearch
